import Mathlib

/-!
Verification of the cim-contextgraph graph library.

This file gives a shallow embedding of the library's data model and of the
operations the verified claims talk about:

* src/types.rs      : GraphError, ComponentStorage, NodeEntry, EdgeEntry
* src/context_graph.rs : ContextGraph (wrapping a petgraph Graph) with
  add_node / add_edge / get_node / remove_node / shortest_path / is_cyclic /
  topological_sort / visit_recursive
* src/cid_dag.rs    : CidDag (wrapping a daggy Dag) with add_node /
  add_causal_edge / add_reference / verify_chain, and the EventDag
  specialization with add_event
* src/workflow_graph.rs : WorkflowGraph with initial_states /
  has_terminal_states / find_reachable_states / validate

Modelling conventions.  Identifiers (NodeId, EdgeId, Cid, StateId, TypeId)
are 128-bit random UUIDs or content hashes in the source; they are modelled
as natural numbers, and the freshness of a newly minted UUID is modelled by
a monotone counter carried in the graph value.  HashMap values are modelled
as association lists with HashMap semantics (lookup finds the unique entry
for a key; insert replaces; remove deletes every entry of the key).  The
external graph backends (petgraph, daggy) are not part of this repository,
so their operations are modelled from their documented contracts: a
petgraph Graph is a list of node weights (positions are NodeIndex values)
plus a list of (source index, target index, weight) triples (positions are
EdgeIndex values); dijkstra's result map contains exactly the nodes
reachable from the start; Dfs visits exactly the nodes reachable from its
start node; toposort returns a topological order and fails exactly on
cyclic graphs; daggy's add_edge rejects exactly the edges that would close
a cycle and leaves the graph unchanged in that case.  Rust methods that
mutate `&mut self` and return a `Result` are modelled as functions from the
receiver to a pair of the new receiver state and the result, so that the
state at an early `?`-return is visible.
-/

/-- Error type of graph operations, from GraphError in src/types.rs.
Identifier payloads (NodeId, EdgeId, Cid) are modelled as Nat. -/
inductive GraphError where
  | NodeNotFound (id : Nat)
  | EdgeNotFound (id : Nat)
  | ComponentNotFound (tname : String)
  | ComponentAlreadyExists (tname : String)
  | InvalidOperation (descr : String)
  | InvariantViolation (descr : String)
  | CidNotFound (cid : Nat)
  | DuplicateCid (cid : Nat)
  | CycleDetected
  | ChainVerificationFailed
  deriving DecidableEq, Repr

/-- Association-list model of HashMap lookup: the map never holds two
entries for one key, so taking the first match is HashMap.get. -/
def hmLookup (m : List (Nat × α)) (k : Nat) : Option α :=
  match m with
  | [] => none
  | (k', v) :: rest => if k' = k then some v else hmLookup rest k

/-- Association-list model of HashMap insert (replaces the key's entry). -/
def hmInsert (m : List (Nat × α)) (k : Nat) (v : α) : List (Nat × α) :=
  (k, v) :: m.filter (fun p => p.1 != k)

/-- Association-list model of HashMap remove. -/
def hmRemove (m : List (Nat × α)) (k : Nat) : List (Nat × α) :=
  m.filter (fun p => p.1 != k)

theorem hmLookup_insert_self (m : List (Nat × α)) (k : Nat) (v : α) :
    hmLookup (hmInsert m k v) k = some v := by
  simp [hmInsert, hmLookup]

theorem hmLookup_filter_ne (m : List (Nat × α)) (k k' : Nat) (h : k ≠ k') :
    hmLookup (m.filter (fun p => p.1 != k)) k' = hmLookup m k' := by
  induction m with
  | nil => rfl
  | cons p rest ih =>
    cases p with
    | mk a b =>
      by_cases hp : a = k
      · have hf : (a != k) = false := by simp [hp]
        have hak : a ≠ k' := fun hh => h (hp ▸ hh)
        simp [List.filter_cons, hf, hmLookup, ih, hak]
      · have hf : (a != k) = true := by simp [hp]
        by_cases ha : a = k'
        · subst ha
          simp [List.filter_cons, hf, hmLookup, Ne.symm h]
        · simp [List.filter_cons, hf, hmLookup, ha, ih]

theorem hmLookup_insert_ne (m : List (Nat × α)) (k k' : Nat) (v : α)
    (h : k ≠ k') : hmLookup (hmInsert m k v) k' = hmLookup m k' := by
  simp only [hmInsert, hmLookup, if_neg h]
  exact hmLookup_filter_ne m k k' h

theorem hmLookup_mem (m : List (Nat × α)) (k : Nat) (v : α)
    (h : hmLookup m k = some v) : (k, v) ∈ m := by
  induction m with
  | nil => simp [hmLookup] at h
  | cons p rest ih =>
    cases p with
    | mk a b =>
      by_cases ha : a = k
      · subst ha
        simp [hmLookup] at h
        simp [h]
      · simp [hmLookup, ha] at h
        exact List.mem_cons_of_mem _ (ih h)

/-- One-step edge relation of an edge list over Nat node indices. -/
def EdgeRel (E : List (Nat × Nat)) (u v : Nat) : Prop := (u, v) ∈ E

instance (E : List (Nat × Nat)) (u v : Nat) : Decidable (EdgeRel E u v) := by
  unfold EdgeRel; infer_instance

/-- Reachability: reflexive-transitive closure of the edge relation. -/
def Reaches (E : List (Nat × Nat)) : Nat → Nat → Prop :=
  Relation.ReflTransGen (EdgeRel E)

/-- All edge endpoints lie below the bound V (the node count). -/
def EdgesBounded (E : List (Nat × Nat)) (V : Nat) : Prop :=
  ∀ e ∈ E, e.1 < V ∧ e.2 < V

instance (E : List (Nat × Nat)) (V : Nat) : Decidable (EdgesBounded E V) := by
  unfold EdgesBounded; infer_instance

/-- Successor set of a node in an edge list. -/
def succsOf (E : List (Nat × Nat)) (u : Nat) : Finset Nat :=
  ((E.filter (fun e => e.1 == u)).map (fun e => e.2)).toFinset

/-- One round of forward closure: keep S and add every successor of S. -/
def stepF (E : List (Nat × Nat)) (S : Finset Nat) : Finset Nat :=
  S ∪ S.biUnion (succsOf E)

/-- Iterated forward closure. -/
def iterF (E : List (Nat × Nat)) : Nat → Finset Nat → Finset Nat
  | 0, S => S
  | n + 1, S => stepF E (iterF E n S)

/-- The set of nodes reachable from S, computed by V rounds of closure.
This models the result set of petgraph's Dfs / dijkstra traversals, which
visit exactly the nodes reachable from the start set. -/
def reachSet (E : List (Nat × Nat)) (V : Nat) (S : Finset Nat) : Finset Nat :=
  iterF E V S

theorem mem_succsOf {E : List (Nat × Nat)} {u v : Nat} :
    v ∈ succsOf E u ↔ (u, v) ∈ E := by
  constructor
  · intro h
    simp only [succsOf, List.mem_toFinset, List.mem_map, List.mem_filter] at h
    obtain ⟨e, ⟨he, hu⟩, hv⟩ := h
    have : e.1 = u := by simpa using hu
    cases e; simp only at hv this; subst hv; subst this; exact he
  · intro h
    simp only [succsOf, List.mem_toFinset, List.mem_map, List.mem_filter]
    exact ⟨(u, v), ⟨h, by simp⟩, rfl⟩

theorem subset_stepF (E : List (Nat × Nat)) (S : Finset Nat) : S ⊆ stepF E S :=
  Finset.subset_union_left

theorem subset_iterF (E : List (Nat × Nat)) (n : Nat) (S : Finset Nat) :
    S ⊆ iterF E n S := by
  induction n with
  | zero => exact fun _ h => h
  | succ n ih => exact fun x hx => subset_stepF E _ (ih hx)

theorem iterF_sound (E : List (Nat × Nat)) (n : Nat) (S : Finset Nat) :
    ∀ v ∈ iterF E n S, ∃ s ∈ S, Reaches E s v := by
  induction n with
  | zero => exact fun v hv => ⟨v, hv, Relation.ReflTransGen.refl⟩
  | succ n ih =>
    intro v hv
    simp only [iterF, stepF, Finset.mem_union, Finset.mem_biUnion] at hv
    rcases hv with hv | ⟨u, hu, hsv⟩
    · exact ih v hv
    · obtain ⟨s, hs, hr⟩ := ih u hu
      exact ⟨s, hs, hr.tail (mem_succsOf.mp hsv)⟩

theorem iterF_fixed (E : List (Nat × Nat)) {S : Finset Nat}
    (h : stepF E S = S) : ∀ n, iterF E n S = S := by
  intro n
  induction n with
  | zero => rfl
  | succ n ih => simp [iterF, ih, h]

theorem iterF_bounded (E : List (Nat × Nat)) (V : Nat)
    (hE : EdgesBounded E V) {S : Finset Nat} (hS : S ⊆ Finset.range V) :
    ∀ n, iterF E n S ⊆ Finset.range V := by
  intro n
  induction n with
  | zero => exact hS
  | succ n ih =>
    intro x hx
    simp only [iterF, stepF, Finset.mem_union, Finset.mem_biUnion] at hx
    rcases hx with hx | ⟨u, _, hsv⟩
    · exact ih hx
    · exact Finset.mem_range.mpr (hE _ (mem_succsOf.mp hsv)).2

theorem stepF_congr (E : List (Nat × Nat)) {S T : Finset Nat} (h : S = T) :
    stepF E S = stepF E T := by rw [h]

theorem iterF_stable_succ (E : List (Nat × Nat)) {S : Finset Nat} {k : Nat}
    (h : iterF E (k + 1) S = iterF E k S) :
    ∀ m, k ≤ m → iterF E m S = iterF E k S := by
  intro m hm
  induction m with
  | zero => cases Nat.le_zero.mp hm; rfl
  | succ m ih =>
    rcases Nat.lt_or_ge k (m + 1) with hlt | hge
    · have hk : k ≤ m := Nat.lt_succ_iff.mp hlt
      have := ih hk
      calc iterF E (m + 1) S = stepF E (iterF E m S) := rfl
        _ = stepF E (iterF E k S) := stepF_congr E this
        _ = iterF E (k + 1) S := rfl
        _ = iterF E k S := h
    · have : m + 1 = k := Nat.le_antisymm hge hm
      rw [this]

theorem iterF_card_grow (E : List (Nat × Nat)) (S : Finset Nat) (k : Nat)
    (h : ∀ j < k, iterF E (j + 1) S ≠ iterF E j S) :
    S.card + k ≤ (iterF E k S).card := by
  induction k with
  | zero => simp [iterF]
  | succ k ih =>
    have hk : ∀ j < k, iterF E (j + 1) S ≠ iterF E j S :=
      fun j hj => h j (Nat.lt_succ_of_lt hj)
    have hsub : iterF E k S ⊆ iterF E (k + 1) S := by
      intro x hx; exact subset_stepF E _ hx
    have hneq := h k (Nat.lt_succ_self k)
    have hss : iterF E k S ⊂ iterF E (k + 1) S :=
      Finset.ssubset_iff_subset_ne.mpr ⟨hsub, fun he => hneq he.symm⟩
    have := Finset.card_lt_card hss
    have := ih hk
    omega

theorem reachSet_fixed (E : List (Nat × Nat)) (V : Nat)
    (hE : EdgesBounded E V) {S : Finset Nat} (hS : S ⊆ Finset.range V) :
    stepF E (reachSet E V S) = reachSet E V S := by
  by_cases hemp : S = ∅
  · subst hemp
    have hstep : stepF E (∅ : Finset Nat) = ∅ := by simp [stepF]
    have := iterF_fixed E hstep
    simp only [reachSet, this]
    exact hstep
  · by_contra hne
    have hall : ∀ j < V + 1, iterF E (j + 1) S ≠ iterF E j S := by
      intro j hj heq
      have := iterF_stable_succ E heq V (by omega)
      have h2 : iterF E (V + 1) S = iterF E j S := by
        have := iterF_stable_succ E heq (V + 1) (by omega)
        exact this
      exact hne (by
        show stepF E (iterF E V S) = iterF E V S
        have hV : iterF E V S = iterF E j S := iterF_stable_succ E heq V (by omega)
        have hV1 : stepF E (iterF E V S) = iterF E (V + 1) S := rfl
        rw [hV1, h2, hV])
    have hgrow := iterF_card_grow E S (V + 1) hall
    have hb := iterF_bounded E V hE hS (V + 1)
    have hcard := Finset.card_le_card hb
    have : 1 ≤ S.card := Finset.card_pos.mpr (Finset.nonempty_of_ne_empty hemp)
    simp [Finset.card_range] at hcard
    omega

theorem reachSet_complete (E : List (Nat × Nat)) (V : Nat)
    (hE : EdgesBounded E V) {S : Finset Nat} (hS : S ⊆ Finset.range V)
    {s v : Nat} (hs : s ∈ S) (h : Reaches E s v) : v ∈ reachSet E V S := by
  induction h with
  | refl => exact subset_iterF E V S hs
  | tail _ hst ih =>
    have hfix := reachSet_fixed E V hE hS
    rw [← hfix]
    simp only [stepF, Finset.mem_union, Finset.mem_biUnion]
    exact Or.inr ⟨_, ih, mem_succsOf.mpr hst⟩

theorem mem_reachSet_iff (E : List (Nat × Nat)) (V : Nat)
    (hE : EdgesBounded E V) {S : Finset Nat} (hS : S ⊆ Finset.range V)
    {v : Nat} : v ∈ reachSet E V S ↔ ∃ s ∈ S, Reaches E s v := by
  constructor
  · exact iterF_sound E V S v
  · rintro ⟨s, hs, hr⟩
    exact reachSet_complete E V hE hS hs hr

/-- A directed cycle exists: some edge (u,v) whose target reaches back to
its source. -/
def HasCycle (E : List (Nat × Nat)) : Prop :=
  ∃ u v, (u, v) ∈ E ∧ Reaches E v u

/-- Executable cycle test, modelling petgraph's is_cyclic_directed
(documented: true exactly when the directed graph contains a cycle). -/
def isCyclicB (E : List (Nat × Nat)) (V : Nat) : Bool :=
  E.any (fun e => decide (e.1 ∈ reachSet E V {e.2}))

theorem isCyclicB_iff (E : List (Nat × Nat)) (V : Nat)
    (hE : EdgesBounded E V) : isCyclicB E V = true ↔ HasCycle E := by
  simp only [isCyclicB, List.any_eq_true, decide_eq_true_eq]
  constructor
  · rintro ⟨e, he, hr⟩
    have hS : ({e.2} : Finset Nat) ⊆ Finset.range V := by
      intro x hx
      simp only [Finset.mem_singleton] at hx
      subst hx
      exact Finset.mem_range.mpr (hE e he).2
    obtain ⟨s, hs, hreach⟩ := (mem_reachSet_iff E V hE hS).mp hr
    simp only [Finset.mem_singleton] at hs
    subst hs
    exact ⟨e.1, e.2, he, hreach⟩
  · rintro ⟨u, v, he, hr⟩
    refine ⟨(u, v), he, ?_⟩
    have hS : ({v} : Finset Nat) ⊆ Finset.range V := by
      intro x hx
      simp only [Finset.mem_singleton] at hx
      subst hx
      exact Finset.mem_range.mpr (hE _ he).2
    exact (mem_reachSet_iff E V hE hS).mpr ⟨v, Finset.mem_singleton_self v, hr⟩

theorem reaches_of_pred_iterate (E : List (Nat × Nat)) (C : Finset Nat)
    (f : {x // x ∈ C} → {x // x ∈ C})
    (hf : ∀ t : {x // x ∈ C}, ((f t).val, t.val) ∈ E)
    (x : {x // x ∈ C}) : ∀ k, Reaches E (f^[k] x).val x.val := by
  intro k
  induction k with
  | zero => exact Relation.ReflTransGen.refl
  | succ k ih =>
    rw [Function.iterate_succ_apply']
    exact Relation.ReflTransGen.head (hf (f^[k] x)) ih

/-- A nonempty finite set in which every node has a predecessor inside the
set contains a cycle. -/
theorem hasCycle_of_closed_preds (E : List (Nat × Nat)) (C : Finset Nat)
    (hne : C.Nonempty) (h : ∀ t ∈ C, ∃ s ∈ C, (s, t) ∈ E) : HasCycle E := by
  classical
  obtain ⟨x0, hx0⟩ := hne
  let f : {x // x ∈ C} → {x // x ∈ C} := fun t =>
    ⟨(h t.val t.prop).choose, (h t.val t.prop).choose_spec.1⟩
  have hf : ∀ t : {x // x ∈ C}, ((f t).val, t.val) ∈ E := fun t =>
    (h t.val t.prop).choose_spec.2
  have hfin : Finite {x // x ∈ C} := inferInstance
  obtain ⟨i, j, hij, heq⟩ :=
    Finite.exists_ne_map_eq_of_infinite (fun n : ℕ => f^[n] ⟨x0, hx0⟩)
  rcases Nat.lt_or_ge i j with hlt | hge
  case _ =>
    obtain ⟨k, hk⟩ : ∃ k, j = (k + 1) + i := ⟨j - i - 1, by omega⟩
    set y := f^[i] ⟨x0, hx0⟩ with hy
    have hiter : f^[k + 1] y = y := by
      rw [hy, ← Function.iterate_add_apply, ← hk]
      exact heq.symm
    set z := f^[k] y with hz
    have hfz : f z = y := by
      rw [hz, ← Function.iterate_succ_apply' f k y]
      exact hiter
    refine ⟨y.val, z.val, ?_, ?_⟩
    · have := hf z
      rw [hfz] at this
      exact this
    · exact reaches_of_pred_iterate E C f hf y k
  case _ =>
    have hlt : j < i := by omega
    obtain ⟨k, hk⟩ : ∃ k, i = (k + 1) + j := ⟨i - j - 1, by omega⟩
    set y := f^[j] ⟨x0, hx0⟩ with hy
    have hiter : f^[k + 1] y = y := by
      rw [hy, ← Function.iterate_add_apply, ← hk]
      exact heq
    set z := f^[k] y with hz
    have hfz : f z = y := by
      rw [hz, ← Function.iterate_succ_apply' f k y]
      exact hiter
    refine ⟨y.val, z.val, ?_, ?_⟩
    · have := hf z
      rw [hfz] at this
      exact this
    · exact reaches_of_pred_iterate E C f hf y k

theorem reaches_mono_append (E F : List (Nat × Nat)) {x y : Nat}
    (h : Reaches E x y) : Reaches (E ++ F) x y := by
  induction h with
  | refl => exact Relation.ReflTransGen.refl
  | tail _ hst ih =>
    exact ih.tail (by simp only [EdgeRel, List.mem_append]; exact Or.inl hst)

theorem reaches_append_single_elim (E : List (Nat × Nat)) (a b : Nat)
    {x y : Nat} (h : Reaches (E ++ [(a, b)]) x y) :
    Reaches E x y ∨ (Reaches E x a ∧ Reaches (E ++ [(a, b)]) b y) := by
  induction h with
  | refl => exact Or.inl Relation.ReflTransGen.refl
  | @tail c d hxc hcd ih =>
    simp only [EdgeRel, List.mem_append, List.mem_singleton] at hcd
    rcases hcd with hcd | hcd
    · rcases ih with ih | ⟨iha, ihb⟩
      · exact Or.inl (ih.tail hcd)
      · exact Or.inr ⟨iha, ihb.tail (by simp [EdgeRel, hcd])⟩
    · cases hcd
      rcases ih with ih | ⟨iha, _⟩
      · exact Or.inr ⟨ih, Relation.ReflTransGen.refl⟩
      · exact Or.inr ⟨iha, Relation.ReflTransGen.refl⟩

/-- Appending the edge (a, b) to an acyclic edge list creates a cycle
exactly when b already reaches a. -/
theorem hasCycle_append_single_iff (E : List (Nat × Nat)) (a b : Nat)
    (hac : ¬ HasCycle E) : HasCycle (E ++ [(a, b)]) ↔ Reaches E b a := by
  constructor
  · rintro ⟨u, v, he, hr⟩
    have extract : ∀ {x : Nat}, Reaches (E ++ [(a, b)]) b x → Reaches E b x ∨ Reaches E b a := by
      intro x hx
      rcases reaches_append_single_elim E a b hx with h1 | ⟨h1, _⟩
      · exact Or.inl h1
      · exact Or.inr h1
    simp only [List.mem_append, List.mem_singleton] at he
    rcases he with he | he
    · rcases reaches_append_single_elim E a b hr with h1 | ⟨h1, h2⟩
      · exact absurd ⟨u, v, he, h1⟩ hac
      · have hbu : Reaches (E ++ [(a, b)]) b a :=
          ((h2.tail (show EdgeRel (E ++ [(a, b)]) u v by
              simp [EdgeRel, he])).trans
            (reaches_mono_append E [(a, b)] h1))
        rcases extract hbu with h3 | h3
        · exact h3
        · exact h3
    · cases he
      rcases extract hr with h3 | h3
      · exact h3
      · exact h3
  · intro hr
    exact ⟨a, b, by simp, reaches_mono_append E [(a, b)] hr⟩

/-- Kahn's algorithm: repeatedly emit a remaining node that has no incoming
edge from a remaining node.  This realizes petgraph's documented toposort
contract (a topological order, failing exactly on cyclic graphs); the fuel
argument equals the length of the remaining list. -/
def kahnAux (E : List (Nat × Nat)) : Nat → List Nat → Option (List Nat)
  | 0, rem => if rem.isEmpty then some [] else none
  | fuel + 1, rem =>
    match rem.find? (fun t => !(E.any (fun e => rem.contains e.1 && e.2 == t))) with
    | some t => (kahnAux E fuel (rem.erase t)).map (fun l => t :: l)
    | none => if rem.isEmpty then some [] else none

theorem kahnAux_perm (E : List (Nat × Nat)) :
    ∀ fuel rem out, kahnAux E fuel rem = some out → out.Perm rem := by
  intro fuel
  induction fuel with
  | zero =>
    intro rem out h
    simp only [kahnAux] at h
    by_cases he : rem.isEmpty
    · simp [he] at h
      subst h
      rw [List.isEmpty_iff.mp he]
    · simp [he] at h
  | succ fuel ih =>
    intro rem out h
    simp only [kahnAux] at h
    cases hfind : rem.find? (fun t => !(E.any (fun e => rem.contains e.1 && e.2 == t))) with
    | some t =>
      simp only [hfind] at h
      cases hrec : kahnAux E fuel (rem.erase t) with
      | none => rw [hrec] at h; simp at h
      | some l' =>
        rw [hrec] at h
        simp at h
        subst h
        have hmem : t ∈ rem := List.mem_of_find?_eq_some hfind
        exact ((ih _ _ hrec).cons t).trans (List.perm_cons_erase hmem).symm
    | none =>
      simp only [hfind] at h
      by_cases he : rem.isEmpty
      · simp [he] at h
        subst h
        rw [List.isEmpty_iff.mp he]
      · simp [he] at h

theorem kahnAux_no_incoming (E : List (Nat × Nat)) {rem : List Nat} {t : Nat}
    (hfind : rem.find? (fun t => !(E.any (fun e => rem.contains e.1 && e.2 == t))) = some t) :
    ∀ s, (s, t) ∈ E → s ∉ rem := by
  intro s hst hs
  have hp := List.find?_some hfind
  simp only [Bool.not_eq_eq_eq_not, Bool.not_true, List.any_eq_false] at hp
  have h2 := hp (s, t) hst
  simp at h2
  exact h2 hs

theorem kahnAux_ordered (E : List (Nat × Nat)) :
    ∀ fuel rem out, kahnAux E fuel rem = some out →
    ∀ s t, (s, t) ∈ E → s ∈ rem → t ∈ rem →
    ∃ i j, i < j ∧ out.get? i = some s ∧ out.get? j = some t := by
  intro fuel
  induction fuel with
  | zero =>
    intro rem out h s t _ hs _
    simp only [kahnAux] at h
    by_cases he : rem.isEmpty
    · rw [List.isEmpty_iff.mp he] at hs
      simp at hs
    · simp [he] at h
  | succ fuel ih =>
    intro rem out h s t hedge hs ht
    simp only [kahnAux] at h
    cases hfind : rem.find? (fun t => !(E.any (fun e => rem.contains e.1 && e.2 == t))) with
    | some t0 =>
      simp only [hfind] at h
      cases hrec : kahnAux E fuel (rem.erase t0) with
      | none => rw [hrec] at h; simp at h
      | some l' =>
        rw [hrec] at h
        simp at h
        subst h
        by_cases htt0 : t = t0
        · subst htt0
          exact absurd hs (kahnAux_no_incoming E hfind s hedge)
        · have htmem : t ∈ rem.erase t0 := (List.mem_erase_of_ne htt0).mpr ht
          by_cases hst0 : s = t0
          · subst hst0
            have hperm := kahnAux_perm E fuel _ _ hrec
            have : t ∈ l' := hperm.mem_iff.mpr htmem
            obtain ⟨j, hj⟩ := List.mem_iff_get?.mp this
            exact ⟨0, j + 1, Nat.succ_pos j, rfl, by simpa using hj⟩
          · have hsmem : s ∈ rem.erase t0 := (List.mem_erase_of_ne hst0).mpr hs
            obtain ⟨i, j, hij, hi, hj⟩ := ih _ _ hrec s t hedge hsmem htmem
            exact ⟨i + 1, j + 1, by omega, by simpa using hi, by simpa using hj⟩
    | none =>
      simp only [hfind] at h
      by_cases he : rem.isEmpty
      · rw [List.isEmpty_iff.mp he] at hs
        simp at hs
      · simp [he] at h

theorem kahnAux_isSome_of_acyclic (E : List (Nat × Nat))
    (hac : ¬ HasCycle E) :
    ∀ fuel rem, fuel = rem.length → rem.Nodup →
    (kahnAux E fuel rem).isSome := by
  intro fuel
  induction fuel with
  | zero =>
    intro rem hlen _
    have : rem = [] := List.eq_nil_of_length_eq_zero hlen.symm
    subst this
    simp [kahnAux]
  | succ fuel ih =>
    intro rem hlen hnd
    simp only [kahnAux]
    cases hfind : rem.find? (fun t => !(E.any (fun e => rem.contains e.1 && e.2 == t))) with
    | some t =>
      have hmem : t ∈ rem := List.mem_of_find?_eq_some hfind
      have hlen' : fuel = (rem.erase t).length := by
        rw [List.length_erase_of_mem hmem]
        omega
      have hsome := ih (rem.erase t) hlen' (hnd.erase t)
      simp only [hfind]
      cases hrec : kahnAux E fuel (rem.erase t) with
      | none => rw [hrec] at hsome; simp at hsome
      | some l' => rfl
    | none =>
      cases rem with
      | nil => simp
      | cons r rest =>
        exfalso
        apply hac
        apply hasCycle_of_closed_preds E (r :: rest).toFinset
        · exact ⟨r, by simp⟩
        · intro t htC
          rw [List.mem_toFinset] at htC
          have hany : (E.any fun e => (r :: rest).contains e.1 && e.2 == t) = true := by
            have hnone := List.find?_eq_none.mp hfind t htC
            simpa using hnone
          simp only [List.any_eq_true, Bool.and_eq_true, beq_iff_eq] at hany
          obtain ⟨e, he, hin, heq⟩ := hany
          simp only [List.elem_iff] at hin
          refine ⟨e.1, by rw [List.mem_toFinset]; exact hin, ?_⟩
          have hpair : e = (e.1, t) := by
            cases e; simp at heq ⊢; exact heq
          rw [← hpair]
          exact he

theorem kahnAux_none_of_closed_set (E : List (Nat × Nat)) (C : Finset Nat)
    (hne : C.Nonempty) (hcl : ∀ t ∈ C, ∃ s ∈ C, (s, t) ∈ E) :
    ∀ fuel rem, (∀ c ∈ C, c ∈ rem) → kahnAux E fuel rem = none := by
  intro fuel
  induction fuel with
  | zero =>
    intro rem hsub
    obtain ⟨c, hc⟩ := hne
    have : rem ≠ [] := fun hn => by
      rw [hn] at hsub
      exact absurd (hsub c hc) (List.not_mem_nil c)
    simp only [kahnAux]
    rw [if_neg (by simpa [List.isEmpty_iff] using this)]
  | succ fuel ih =>
    intro rem hsub
    simp only [kahnAux]
    cases hfind : rem.find? (fun t => !(E.any (fun e => rem.contains e.1 && e.2 == t))) with
    | some t =>
      have htC : t ∉ C := by
        intro htC
        obtain ⟨s, hsC, hedge⟩ := hcl t htC
        exact kahnAux_no_incoming E hfind s hedge (hsub s hsC)
      have hsub' : ∀ c ∈ C, c ∈ rem.erase t := fun c hc =>
        (List.mem_erase_of_ne (fun (hh : c = t) => htC (hh ▸ hc))).mpr (hsub c hc)
      simp only [hfind]
      rw [ih _ hsub']
      rfl
    | none =>
      obtain ⟨c, hc⟩ := hne
      have : rem ≠ [] := fun hn => by
        rw [hn] at hsub
        exact absurd (hsub c hc) (List.not_mem_nil c)
      simp only [hfind]
      rw [if_neg (by simpa [List.isEmpty_iff] using this)]

/-- The closed predecessor set of a cycle: every node that lies on a cycle
through the edge (u, v). -/
def cycleSet (E : List (Nat × Nat)) (V : Nat) (u v : Nat) : Finset Nat :=
  (reachSet E V {v}).filter (fun x => u ∈ reachSet E V {x})

theorem cycleSet_spec (E : List (Nat × Nat)) (V : Nat)
    (hE : EdgesBounded E V) {u v : Nat} (he : (u, v) ∈ E)
    {x : Nat} : x ∈ cycleSet E V u v ↔ Reaches E v x ∧ Reaches E x u := by
  have hv : ({v} : Finset Nat) ⊆ Finset.range V := by
    intro y hy
    simp only [Finset.mem_singleton] at hy
    subst hy
    exact Finset.mem_range.mpr (hE _ he).2
  simp only [cycleSet, Finset.mem_filter]
  constructor
  · rintro ⟨h1, h2⟩
    have hx : ({x} : Finset Nat) ⊆ Finset.range V := by
      intro y hy
      simp only [Finset.mem_singleton] at hy
      subst hy
      exact iterF_bounded E V hE hv V h1
    obtain ⟨s, hs, hr1⟩ := (mem_reachSet_iff E V hE hv).mp h1
    obtain ⟨s', hs', hr2⟩ := (mem_reachSet_iff E V hE hx).mp h2
    simp only [Finset.mem_singleton] at hs hs'
    subst hs; subst hs'
    exact ⟨hr1, hr2⟩
  · rintro ⟨h1, h2⟩
    have hxmem : x ∈ reachSet E V {v} :=
      (mem_reachSet_iff E V hE hv).mpr ⟨v, Finset.mem_singleton_self v, h1⟩
    have hx : ({x} : Finset Nat) ⊆ Finset.range V := by
      intro y hy
      simp only [Finset.mem_singleton] at hy
      subst hy
      exact iterF_bounded E V hE hv V hxmem
    exact ⟨hxmem, (mem_reachSet_iff E V hE hx).mpr ⟨x, Finset.mem_singleton_self x, h2⟩⟩

theorem cycleSet_closed (E : List (Nat × Nat)) (V : Nat)
    (hE : EdgesBounded E V) {u v : Nat} (he : (u, v) ∈ E)
    (hrva : Reaches E v u) :
    ∀ t ∈ cycleSet E V u v, ∃ s ∈ cycleSet E V u v, (s, t) ∈ E := by
  intro t ht
  obtain ⟨h1, h2⟩ := (cycleSet_spec E V hE he).mp ht
  rcases Relation.ReflTransGen.cases_tail h1 with heq | ⟨p, hvp, hpt⟩
  · subst heq
    refine ⟨u, ?_, he⟩
    exact (cycleSet_spec E V hE he).mpr ⟨hrva, Relation.ReflTransGen.refl⟩
  · refine ⟨p, ?_, hpt⟩
    exact (cycleSet_spec E V hE he).mpr ⟨hvp, Relation.ReflTransGen.head hpt h2⟩

theorem cycleSet_nonempty (E : List (Nat × Nat)) (V : Nat)
    (hE : EdgesBounded E V) {u v : Nat} (he : (u, v) ∈ E)
    (hrva : Reaches E v u) : (cycleSet E V u v).Nonempty :=
  ⟨u, (cycleSet_spec E V hE he).mpr ⟨hrva, Relation.ReflTransGen.refl⟩⟩

theorem cycleSet_subset_range (E : List (Nat × Nat)) (V : Nat)
    (hE : EdgesBounded E V) {u v : Nat} (he : (u, v) ∈ E) :
    ∀ c ∈ cycleSet E V u v, c ∈ List.range V := by
  intro c hc
  have hv : ({v} : Finset Nat) ⊆ Finset.range V := by
    intro y hy
    simp only [Finset.mem_singleton] at hy
    subst hy
    exact Finset.mem_range.mpr (hE _ he).2
  simp only [cycleSet, Finset.mem_filter] at hc
  have := iterF_bounded E V hE hv V hc.1
  rw [List.mem_range]
  exact Finset.mem_range.mp this

/-- The top-level Kahn run over all node indices: some topological order,
or none exactly when the graph is cyclic. -/
def kahnSort (E : List (Nat × Nat)) (V : Nat) : Option (List Nat) :=
  kahnAux E V (List.range V)

theorem kahnSort_isSome_iff (E : List (Nat × Nat)) (V : Nat)
    (hE : EdgesBounded E V) : (kahnSort E V).isSome ↔ ¬ HasCycle E := by
  constructor
  · intro hs hcyc
    obtain ⟨u, v, he, hr⟩ := hcyc
    have := kahnAux_none_of_closed_set E (cycleSet E V u v)
      (cycleSet_nonempty E V hE he hr)
      (cycleSet_closed E V hE he hr) V (List.range V)
      (cycleSet_subset_range E V hE he)
    rw [kahnSort, this] at hs
    simp at hs
  · intro hac
    exact kahnAux_isSome_of_acyclic E hac V (List.range V)
      (by simp) (List.nodup_range V)

theorem kahnSort_perm (E : List (Nat × Nat)) (V : Nat) {out : List Nat}
    (h : kahnSort E V = some out) : out.Perm (List.range V) :=
  kahnAux_perm E V _ _ h

theorem kahnSort_ordered (E : List (Nat × Nat)) (V : Nat)
    (hE : EdgesBounded E V) {out : List Nat}
    (h : kahnSort E V = some out) :
    ∀ s t, (s, t) ∈ E →
    ∃ i j, i < j ∧ out.get? i = some s ∧ out.get? j = some t := by
  intro s t hedge
  exact kahnAux_ordered E V _ _ h s t hedge
    (List.mem_range.mpr (hE _ hedge).1)
    (List.mem_range.mpr (hE _ hedge).2)

/-- ComponentStorage from src/types.rs: a HashMap from TypeId to the boxed
component.  TypeId is modelled as Nat and the boxed dyn Component value as
an arbitrary type V; the typed downcast in get::<T>() always succeeds
because the entry stored at TypeId::of::<T>() was put there by add::<T>(),
so get/remove/has are exactly the keyed map operations. -/
structure ComponentStorage (V : Type) where
  components : List (Nat × V)
  deriving DecidableEq

/-- ComponentStorage::add: fails with ComponentAlreadyExists when an entry
of the same TypeId is present (tname models T::type_name()). -/
def ComponentStorage.add (s : ComponentStorage V) (tid : Nat) (tname : String)
    (v : V) : ComponentStorage V × Option GraphError :=
  if (hmLookup s.components tid).isSome then
    (s, some (GraphError.ComponentAlreadyExists tname))
  else
    ({ components := hmInsert s.components tid v }, none)

/-- ComponentStorage::get. -/
def ComponentStorage.get (s : ComponentStorage V) (tid : Nat) : Option V :=
  hmLookup s.components tid

/-- ComponentStorage::remove (returns the removed component). -/
def ComponentStorage.remove (s : ComponentStorage V) (tid : Nat) :
    ComponentStorage V × Option V :=
  ({ components := hmRemove s.components tid }, hmLookup s.components tid)

/-- ComponentStorage::has. -/
def ComponentStorage.has (s : ComponentStorage V) (tid : Nat) : Bool :=
  (hmLookup s.components tid).isSome

theorem hmLookup_none_of_all_ne (m : List (Nat × α)) (k : Nat)
    (h : ∀ p ∈ m, p.1 ≠ k) : hmLookup m k = none := by
  induction m with
  | nil => rfl
  | cons p rest ih =>
    cases p with
    | mk a b =>
      have ha : a ≠ k := h (a, b) (List.mem_cons_self _ _)
      simp only [hmLookup, if_neg ha]
      exact ih (fun q hq => h q (List.mem_cons_of_mem _ hq))

theorem hmLookup_remove_self (m : List (Nat × α)) (k : Nat) :
    hmLookup (hmRemove m k) k = none := by
  apply hmLookup_none_of_all_ne
  intro p hp
  simp only [hmRemove, List.mem_filter] at hp
  simpa using hp.2

/-- Metadata from src/types.rs (JSON property values modelled as strings). -/
structure Metadata where
  description : Option String := none
  tags : List String := []
  properties : List (String × String) := []
  deriving DecidableEq

/-- NodeEntry from src/types.rs: stable NodeId, payload, component bag.
The component payload type C is a parameter; ContextGraph instantiates it
with the closed component universe CompVal below. -/
structure NodeEntry (N : Type) (C : Type) where
  id : Nat
  value : N
  components : ComponentStorage C
  deriving DecidableEq

/-- EdgeEntry from src/types.rs: stable EdgeId, the source and target
NodeIds, payload, component bag. -/
structure EdgeEntry (E : Type) (C : Type) where
  id : Nat
  source : Nat
  target : Nat
  value : E
  components : ComponentStorage C
  deriving DecidableEq

/-- ContextGraph from src/context_graph.rs.  graphNodes and graphEdges are
the wrapped petgraph Graph: node weights listed by NodeIndex position, and
(source index, target index, weight) triples listed by EdgeIndex position.
The four maps mirror the id-to-index HashMaps.  nextNodeId and nextEdgeId
model Uuid::new_v4 freshness (a fresh uuid differs from every previously
minted id).  The invariants field of the Rust struct holds trait objects;
a function-valued field would make this type self-referential, so the
invariant list is passed to add_edge explicitly instead. -/
structure ContextGraph (N E C : Type) where
  graphNodes : List (NodeEntry N C)
  graphEdges : List (Nat × Nat × EdgeEntry E C)
  node_id_map : List (Nat × Nat)
  edge_id_map : List (Nat × Nat)
  node_index_map : List (Nat × Nat)
  edge_index_map : List (Nat × Nat)
  metadata : Metadata
  nextNodeId : Nat
  nextEdgeId : Nat
  deriving DecidableEq

/-- ContextGraph::new. -/
def ContextGraph.new (N E C : Type) (name : String) : ContextGraph N E C :=
  { graphNodes := [], graphEdges := [], node_id_map := [], edge_id_map := [],
    node_index_map := [], edge_index_map := [],
    metadata := { properties := [("name", name)] },
    nextNodeId := 0, nextEdgeId := 0 }

/-- ContextGraph::add_node: mint a fresh NodeId, push the entry into the
petgraph node list, and record both id/index mappings. -/
def ContextGraph.add_node (g : ContextGraph N E C) (value : N) :
    ContextGraph N E C × Nat :=
  let node_id := g.nextNodeId
  let entry : NodeEntry N C := { id := node_id, value := value, components := ⟨[]⟩ }
  let node_index := g.graphNodes.length
  ({ g with graphNodes := g.graphNodes ++ [entry],
            node_id_map := hmInsert g.node_id_map node_id node_index,
            node_index_map := hmInsert g.node_index_map node_index node_id,
            nextNodeId := node_id + 1 }, node_id)

/-- ContextGraph::check_invariants: run every registered invariant in
order and return the first failure. -/
def ContextGraph.check_invariants
    (invs : List (ContextGraph N E C → Option GraphError))
    (g : ContextGraph N E C) : Option GraphError :=
  invs.findSome? (fun inv => inv g)

/-- ContextGraph::add_edge: resolve both endpoint indices (NodeNotFound on
a missing endpoint), insert the edge into the petgraph edge list, record
the edge id/index mappings, and only then run check_invariants.  On an
invariant failure the error is returned but the inserted edge stays in the
graph and in both mappings (the code has no rollback). -/
def ContextGraph.add_edge (g : ContextGraph N E C)
    (invs : List (ContextGraph N E C → Option GraphError))
    (source target : Nat) (value : E) :
    ContextGraph N E C × Except GraphError Nat :=
  match hmLookup g.node_id_map source with
  | none => (g, .error (GraphError.NodeNotFound source))
  | some source_idx =>
    match hmLookup g.node_id_map target with
    | none => (g, .error (GraphError.NodeNotFound target))
    | some target_idx =>
      let edge_id := g.nextEdgeId
      let entry : EdgeEntry E C :=
        { id := edge_id, source := source, target := target, value := value,
          components := ⟨[]⟩ }
      let edge_index := g.graphEdges.length
      let g' := { g with
                  graphEdges := g.graphEdges ++ [(source_idx, target_idx, entry)],
                  edge_id_map := hmInsert g.edge_id_map edge_id edge_index,
                  edge_index_map := hmInsert g.edge_index_map edge_index edge_id,
                  nextEdgeId := edge_id + 1 }
      match ContextGraph.check_invariants invs g' with
      | some err => (g', .error err)
      | none => (g', .ok edge_id)

/-- ContextGraph::get_node: map the id to its index, then read the
petgraph node weight. -/
def ContextGraph.get_node (g : ContextGraph N E C) (id : Nat) :
    Option (NodeEntry N C) :=
  (hmLookup g.node_id_map id).bind (fun idx => g.graphNodes.get? idx)

/-- Edge index pairs of the wrapped petgraph Graph. -/
def ContextGraph.edgePairs (g : ContextGraph N E C) : List (Nat × Nat) :=
  g.graphEdges.map (fun e => (e.1, e.2.1))

/-- ContextGraph::shortest_path: dijkstra from the start index with every
edge of cost 1; its result map holds exactly the nodes reachable from the
start, and when the end index is present the code returns Some(vec![])
(the path reconstruction is left as the comment "Reconstruct path...
Simplified"), else None. -/
def ContextGraph.shortest_path (g : ContextGraph N E C) (start end_ : Nat) :
    Option (List Nat) :=
  (hmLookup g.node_id_map start).bind fun start_idx =>
  (hmLookup g.node_id_map end_).bind fun end_idx =>
  if end_idx ∈ reachSet g.edgePairs g.graphNodes.length {start_idx} then
    some []
  else
    none

/-- ContextGraph::is_cyclic via petgraph's is_cyclic_directed. -/
def ContextGraph.is_cyclic (g : ContextGraph N E C) : Bool :=
  isCyclicB g.edgePairs g.graphNodes.length

/-- ContextGraph::topological_sort: petgraph's toposort (modelled by
kahnSort), mapping the sorted indices back to NodeIds through
node_index_map; a cyclic graph yields CycleDetected. -/
def ContextGraph.topological_sort (g : ContextGraph N E C) :
    Except GraphError (List Nat) :=
  match kahnSort g.edgePairs g.graphNodes.length with
  | some sorted =>
    .ok (sorted.filterMap (fun idx => hmLookup g.node_index_map idx))
  | none => .error GraphError.CycleDetected

/-- ContextGraph::remove_node: petgraph's remove_node drops every incident
edge and moves the last node into the removed slot (the last node index is
renamed to the removed index); afterwards the code rebuilds all four
id/index maps from the surviving graph. -/
def ContextGraph.remove_node (g : ContextGraph N E C) (node_id : Nat) :
    ContextGraph N E C × Option (NodeEntry N C) :=
  match hmLookup g.node_id_map node_id with
  | none => (g, none)
  | some node_idx =>
    let node_data := g.graphNodes.get? node_idx
    let last := g.graphNodes.length - 1
    let keptEdges := (g.graphEdges.filter
      (fun e => e.1 != node_idx && e.2.1 != node_idx)).map
      (fun e => (if e.1 = last then node_idx else e.1,
                 if e.2.1 = last then node_idx else e.2.1, e.2.2))
    let newNodes := match g.graphNodes.getLast? with
      | none => []
      | some lastNode => (g.graphNodes.set node_idx lastNode).dropLast
    ({ g with graphNodes := newNodes,
              graphEdges := keptEdges,
              node_id_map := newNodes.enum.map (fun p => (p.snd.id, p.fst)),
              node_index_map := newNodes.enum.map (fun p => (p.fst, p.snd.id)),
              edge_id_map := keptEdges.enum.map (fun p => (p.snd.snd.snd.id, p.fst)),
              edge_index_map := keptEdges.enum.map (fun p => (p.fst, p.snd.snd.snd.id)) },
     node_data)

/-- Well-formedness of a ContextGraph, maintained by the construction API:
node ids are pairwise distinct, node_id_map entries point at nodes bearing
the key id, every node index is found by looking up its node's id,
node_index_map inverts the indexing, and every edge's endpoint indices
carry exactly the edge entry's source/target ids. -/
def ContextGraph.WF (g : ContextGraph N E C) : Prop :=
  (g.graphNodes.map (fun n => n.id)).Nodup ∧
  (∀ p ∈ g.node_id_map,
    (g.graphNodes.get? p.2).map (fun n => n.id) = some p.1) ∧
  (∀ i ∈ List.range g.graphNodes.length,
    hmLookup g.node_id_map (((g.graphNodes.get? i).map (fun n => n.id)).getD 0)
      = some i) ∧
  (∀ i ∈ List.range g.graphNodes.length,
    hmLookup g.node_index_map i = (g.graphNodes.get? i).map (fun n => n.id)) ∧
  (∀ e ∈ g.graphEdges,
    (g.graphNodes.get? e.1).map (fun n => n.id) = some e.2.2.source ∧
    (g.graphNodes.get? e.2.1).map (fun n => n.id) = some e.2.2.target)

instance (g : ContextGraph N E C) : Decidable g.WF := by
  unfold ContextGraph.WF; infer_instance

/-- Closed universe of component values instantiating the type-erased dyn
Component for this development: Label from src/types.rs, and the Subgraph
component that owns a nested ContextGraph.  TypeId::of::<T> is modelled by
CompVal.typeId. -/
inductive CompVal (N E : Type) : Type where
  | label : String → CompVal N E
  | subgraphC : ContextGraph N E (CompVal N E) → CompVal N E

/-- A ContextGraph whose component bags hold CompVal components. -/
abbrev CGraph (N E : Type) := ContextGraph N E (CompVal N E)

/-- TypeId of the Label component type. -/
def labelTypeId : Nat := 0

/-- TypeId of the Subgraph component type. -/
def subgraphTypeId : Nat := 1

/-- TypeId::of for component values. -/
def CompVal.typeId : CompVal N E → Nat
  | .label _ => labelTypeId
  | .subgraphC _ => subgraphTypeId

/-- NodeEntry::add_component (delegates to ComponentStorage::add). -/
def NodeEntry.add_component (n : NodeEntry N C) (tid : Nat) (tname : String)
    (c : C) : NodeEntry N C × Option GraphError :=
  let r := n.components.add tid tname c
  ({ n with components := r.1 }, r.2)

/-- The source pattern graph.get_node_mut(id).unwrap().add_component(c):
mutate the node found by id in place; an unknown id leaves g unchanged. -/
def ContextGraph.add_node_component (g : ContextGraph N E C) (id tid : Nat)
    (tname : String) (c : C) : ContextGraph N E C :=
  match hmLookup g.node_id_map id with
  | none => g
  | some idx =>
    match g.graphNodes.get? idx with
    | none => g
    | some n =>
      { g with graphNodes := g.graphNodes.set idx (n.add_component tid tname c).1 }

/-- NodeEntry::get_component::<Subgraph>: look up the Subgraph TypeId in
the component bag and downcast. -/
def NodeEntry.get_subgraph (n : NodeEntry N (CompVal N E)) :
    Option (CGraph N E) :=
  match n.components.get subgraphTypeId with
  | some (CompVal.subgraphC sg) => some sg
  | _ => none

/-- ContextGraph::get_subgraph_nodes, i.e.
query_nodes_with_component::<Subgraph>: the NodeIds (in node index order)
of the nodes whose component bag has a Subgraph component. -/
def ContextGraph.get_subgraph_nodes (g : CGraph N E) : List Nat :=
  (List.range g.graphNodes.length).filterMap (fun i =>
    match g.graphNodes.get? i with
    | some n => if (n.components.get subgraphTypeId).isSome
        then hmLookup g.node_index_map i else none
    | none => none)

theorem sizeOf_lt_of_get_subgraph [SizeOf N] [SizeOf E]
    (n : NodeEntry N (CompVal N E)) (sg : CGraph N E)
    (h : n.get_subgraph = some sg) : sizeOf sg < sizeOf n := by
  have hget : n.components.get subgraphTypeId = some (CompVal.subgraphC sg) := by
    unfold NodeEntry.get_subgraph at h
    cases hm : n.components.get subgraphTypeId with
    | none => rw [hm] at h; simp at h
    | some c =>
      cases c with
      | label s => rw [hm] at h; simp at h
      | subgraphC g2 =>
        rw [hm] at h
        simp at h
        rw [h]
  have hmem : (subgraphTypeId, CompVal.subgraphC sg) ∈ n.components.components :=
    hmLookup_mem _ _ _ hget
  have h2 := List.sizeOf_lt_of_mem hmem
  cases n with
  | mk idv val comps =>
    cases comps with
    | mk lst =>
      simp only [NodeEntry.mk.sizeOf_spec, ComponentStorage.mk.sizeOf_spec,
        Prod.mk.sizeOf_spec, CompVal.subgraphC.sizeOf_spec] at *
      omega

theorem sizeOf_graphNodes_lt [SizeOf N] [SizeOf E] [SizeOf C]
    (g : ContextGraph N E C) : sizeOf g.graphNodes < sizeOf g := by
  cases g with
  | mk ns es m1 m2 m3 m4 md c1 c2 =>
    simp only [ContextGraph.mk.sizeOf_spec]
    omega

/-- ContextGraph::visit_recursive_impl: visit (g, depth), then, walking
get_subgraph_nodes in node index order, recurse into each node's nested
graph at depth + 1.  The FnMut visitor is modelled by the returned list of
(graph, depth) visit events in call order. -/
def ContextGraph.visit_recursive_impl [SizeOf N] [SizeOf E] (g : CGraph N E)
    (depth : Nat) : List (CGraph N E × Nat) :=
  (g, depth) :: (g.graphNodes.attach.flatMap (fun np =>
    match hsub : np.val.get_subgraph with
    | some sg => sg.visit_recursive_impl (depth + 1)
    | none => []))
termination_by sizeOf g
decreasing_by
  have h1 := sizeOf_lt_of_get_subgraph np.val sg hsub
  have h2 := List.sizeOf_lt_of_mem np.property
  have h3 := sizeOf_graphNodes_lt g
  omega

/-- ContextGraph::visit_recursive: invoke the visitor on (g, 0) first, then
run petgraph's Dfs from the first node index (node_indices().next(),
i.e. index 0) and start the nested visitation at depth 1 for every REACHED
node that carries a Subgraph component.  Dfs visits exactly the nodes
reachable from its start, modelled by reachSet and enumerated in index
order; nodes not reachable from index 0 are never inspected. -/
def ContextGraph.visit_recursive [SizeOf N] [SizeOf E] (g : CGraph N E) :
    List (CGraph N E × Nat) :=
  (g, 0) ::
  (if g.graphNodes.isEmpty then []
   else ((List.range g.graphNodes.length).filter
      (fun i => decide (i ∈ reachSet g.edgePairs g.graphNodes.length {0}))).flatMap
     (fun i => match g.graphNodes.get? i with
       | some n =>
         match n.get_subgraph with
         | some sg => sg.visit_recursive_impl 1
         | none => []
       | none => []))

/-- The always-failing invariant used by the repository's integration
tests (RejectingInvariant in tests/context_graph_integration_tests.rs). -/
def rejectingInvariant : CGraph String Nat → Option GraphError :=
  fun _ => some (GraphError.InvariantViolation "Always reject")

/-- A two-node graph built through the API (node ids 0 and 1). -/
def demoTwoNodes : CGraph String Nat :=
  ((((ContextGraph.new String Nat (CompVal String Nat) "TestGraph").add_node
      "Node1").1).add_node "Node2").1

/-- C1: with a registered invariant that rejects every graph, add_edge
returns InvariantViolation, but the freshly inserted edge is NOT rolled
back: it stays in the petgraph edge list and in the edge id map.  The
claim says the graph must remain in its prior state; the code checks
invariants only after inserting the edge and returns the error without
removing it. -/
theorem claim_C1_invariant_violation_leaves_edge :
    ((demoTwoNodes.add_edge [rejectingInvariant] 0 1 42).2
      = Except.error (GraphError.InvariantViolation "Always reject")) ∧
    demoTwoNodes.graphEdges.length = 0 ∧
    (demoTwoNodes.add_edge [rejectingInvariant] 0 1 42).1.graphEdges.length = 1 ∧
    hmLookup (demoTwoNodes.add_edge [rejectingInvariant] 0 1 42).1.edge_id_map 0
      = some 0 :=
  ⟨rfl, rfl, rfl, rfl⟩

/-- The two-node graph with one edge from node 0 to node 1. -/
def demoC2 : CGraph String Nat := (demoTwoNodes.add_edge [] 0 1 7).1

/-- C2: shortest_path on a graph where the end node IS reachable returns
Some, but the contained vector is empty — it is not a node-id sequence
leading from start to end (the code returns Some(vec![]) with the comment
"Reconstruct path... Simplified"). -/
theorem claim_C2_shortest_path_empty_vector :
    demoC2.shortest_path 0 1 = some [] ∧
    (∀ l, demoC2.shortest_path 0 1 = some l → 0 ∉ l ∧ 1 ∉ l) := by
  have h : demoC2.shortest_path 0 1 = some [] := by decide
  refine ⟨h, ?_⟩
  intro l hl
  rw [h] at hl
  cases hl
  simp

/-- A one-node nested graph. -/
def demoInner : CGraph String Nat :=
  ((ContextGraph.new String Nat (CompVal String Nat) "Inner").add_node "X").1

/-- The two-node edgeless graph whose SECOND node (id 1, index 1) carries a
Subgraph component; index 1 is not reachable from index 0. -/
def demoC3 : CGraph String Nat :=
  demoTwoNodes.add_node_component 1 subgraphTypeId "Subgraph"
    (CompVal.subgraphC demoInner)

/-- C3: visit_recursive only visits at depth 0 (the map of visit depths is
[0]) although get_subgraph_nodes shows a subgraph-carrying node (id 1):
the DFS used to find subgraph nodes starts only at the first node index,
so the subgraph on the unreachable node 1 is never visited, contradicting
the claim that every subgraph-carrying node is visited regardless of its
position in the connectivity structure. -/
theorem claim_C3_visit_recursive_misses_unreachable_subgraph :
    (demoC3.visit_recursive).map Prod.snd = [0] ∧
    demoC3.get_subgraph_nodes = [1] := by
  constructor
  · decide
  · decide

/-- C8: on a storage without a component of TypeId tid, add succeeds and an
immediate get returns the added value; removing the component afterwards
makes has false.  (src/types.rs, ComponentStorage.) -/
theorem claim_C8_component_roundtrip {V : Type} (s : ComponentStorage V)
    (tid : Nat) (tname : String) (v : V) (h : s.has tid = false) :
    (s.add tid tname v).2 = none ∧
    (s.add tid tname v).1.get tid = some v ∧
    ((((s.add tid tname v).1).remove tid).1).has tid = false := by
  have hn : (hmLookup s.components tid).isSome = false := h
  refine ⟨?_, ?_, ?_⟩
  · simp [ComponentStorage.add, hn]
  · simp [ComponentStorage.add, hn, ComponentStorage.get, hmLookup_insert_self]
  · simp [ComponentStorage.remove, ComponentStorage.has, hmLookup_remove_self]

/-- Witness for C8 at a concrete storage, TypeId and value. -/
theorem claim_C8_component_roundtrip_witness :
    ((⟨[]⟩ : ComponentStorage Nat).has 0 = false) ∧
    (((⟨[]⟩ : ComponentStorage Nat).add 0 "Label" 7).2 = none ∧
     ((⟨[]⟩ : ComponentStorage Nat).add 0 "Label" 7).1.get 0 = some 7 ∧
     (((((⟨[]⟩ : ComponentStorage Nat).add 0 "Label" 7).1).remove 0).1).has 0
       = false) :=
  ⟨rfl, claim_C8_component_roundtrip ⟨[]⟩ 0 "Label" 7 rfl⟩

theorem nodup_ids_ne {N C : Type} {l : List (NodeEntry N C)}
    (h : (l.map (fun nd => nd.id)).Nodup) {i j : Nat} (hij : i ≠ j)
    {a b : NodeEntry N C} (ha : l.get? i = some a) (hb : l.get? j = some b) :
    a.id ≠ b.id := by
  intro he
  have hi : i < l.length := (List.get?_eq_some.mp ha).1
  have hmi : (l.map (fun nd => nd.id)).get? i = some a.id := by
    rw [List.get?_map, ha]; rfl
  have hmj : (l.map (fun nd => nd.id)).get? j = some b.id := by
    rw [List.get?_map, hb]; rfl
  apply hij
  apply List.getElem?_inj (by simpa using hi) h
  rw [← List.get?_eq_getElem?, ← List.get?_eq_getElem?, hmi, hmj, he]

theorem mem_swapRemove {α : Type} {l : List α} {idx : Nat} {lastE x : α}
    (hlast : l.getLast? = some lastE)
    (hx : x ∈ (l.set idx lastE).dropLast) :
    ∃ j, j < l.length ∧ j ≠ idx ∧ l.get? j = some x := by
  have hne : l ≠ [] := by
    intro hnil
    rw [hnil] at hlast
    simp at hlast
  have hlen1 : 1 ≤ l.length := by
    cases l with
    | nil => exact absurd rfl hne
    | cons a t => simp
  obtain ⟨pos, hpos, hget⟩ := List.mem_iff_getElem.mp hx
  have hlens : (l.set idx lastE).dropLast.length = l.length - 1 := by
    simp
  have hpos1 : pos < l.length - 1 := by rw [hlens] at hpos; exact hpos
  have hpos2 : pos < (l.set idx lastE).length := by
    simp
    omega
  have hpos3 : pos < l.length := by omega
  have hdrop : (l.set idx lastE).dropLast[pos] = (l.set idx lastE)[pos] :=
    List.getElem_dropLast _ _ _
  have hset : (l.set idx lastE)[pos] = if idx = pos then lastE else l[pos] :=
    List.getElem_set _
  by_cases hip : idx = pos
  · refine ⟨l.length - 1, by omega, by omega, ?_⟩
    have hxl : x = lastE := by
      rw [← hget, hdrop, hset, if_pos hip]
    rw [hxl, ← hlast]
    exact (List.getLast?_eq_get? l).symm ▸ rfl
  · refine ⟨pos, by omega, fun hh => hip hh.symm, ?_⟩
    rw [List.get?_eq_getElem?, List.getElem?_eq_getElem hpos3]
    rw [← hget, hdrop, hset, if_neg hip]

theorem mem_of_lookup_complete {N E C : Type} {g : ContextGraph N E C}
    (hWF : g.WF) {en : NodeEntry N C} (hmem : en ∈ g.graphNodes) :
    ∃ i, hmLookup g.node_id_map en.id = some i := by
  obtain ⟨i, hi, hget⟩ := List.mem_iff_getElem.mp hmem
  refine ⟨i, ?_⟩
  have := hWF.2.2.1 i (List.mem_range.mpr hi)
  rw [List.get?_eq_getElem?, List.getElem?_eq_getElem hi, hget] at this
  simpa using this

/-- C4: after remove_node(n) on a well-formed graph, get_node(n) is none
and no surviving edge entry carries n as source or target; the call
returns the removed entry (whose id is n) when a node with id n existed,
and none with the graph unchanged when n was unknown. -/
theorem claim_C4_remove_node_cascades {N E C : Type}
    (g : ContextGraph N E C) (n : Nat) (hWF : g.WF) :
    ((g.remove_node n).1.get_node n = none) ∧
    (∀ e ∈ (g.remove_node n).1.graphEdges,
        e.snd.snd.source ≠ n ∧ e.snd.snd.target ≠ n) ∧
    ((∃ en ∈ g.graphNodes, en.id = n) →
        ∃ en, (g.remove_node n).2 = some en ∧ en.id = n) ∧
    ((∀ en ∈ g.graphNodes, en.id ≠ n) →
        (g.remove_node n).2 = none ∧ (g.remove_node n).1 = g) := by
  obtain ⟨hnodup, hmap, hcomplete, hindex, hedges⟩ := hWF
  cases hlk : hmLookup g.node_id_map n with
  | none =>
    have hre : g.remove_node n = (g, none) := by
      unfold ContextGraph.remove_node
      rw [hlk]
    have hnotin : ∀ en ∈ g.graphNodes, en.id ≠ n := by
      intro en hen hid
      obtain ⟨i, hi⟩ := mem_of_lookup_complete
        ⟨hnodup, hmap, hcomplete, hindex, hedges⟩ hen
      rw [hid, hlk] at hi
      exact Option.noConfusion hi
    refine ⟨?_, ?_, ?_, ?_⟩
    · rw [hre]
      unfold ContextGraph.get_node
      rw [hlk]
      rfl
    · rw [hre]
      intro e he
      obtain ⟨h1, h2⟩ := hedges e he
      have hs : ∃ nd, g.graphNodes.get? e.1 = some nd ∧ nd.id = e.snd.snd.source := by
        cases hg : g.graphNodes.get? e.1 with
        | none => rw [hg] at h1; simp at h1
        | some nd => rw [hg] at h1; simp at h1; exact ⟨nd, rfl, h1⟩
      have ht : ∃ nd, g.graphNodes.get? e.snd.fst = some nd ∧ nd.id = e.snd.snd.target := by
        cases hg : g.graphNodes.get? e.snd.fst with
        | none => rw [hg] at h2; simp at h2
        | some nd => rw [hg] at h2; simp at h2; exact ⟨nd, rfl, h2⟩
      obtain ⟨nd1, hg1, hid1⟩ := hs
      obtain ⟨nd2, hg2, hid2⟩ := ht
      constructor
      · rw [← hid1]
        exact hnotin nd1 (List.get?_mem hg1)
      · rw [← hid2]
        exact hnotin nd2 (List.get?_mem hg2)
    · rintro ⟨en, hen, hid⟩
      exact absurd hid (hnotin en hen)
    · intro _
      rw [hre]
      exact ⟨rfl, rfl⟩
  | some idx =>
    have hpair : (n, idx) ∈ g.node_id_map := hmLookup_mem _ _ _ hlk
    have hidx := hmap (n, idx) hpair
    simp only at hidx
    have hnd : ∃ nd, g.graphNodes.get? idx = some nd ∧ nd.id = n := by
      cases hg : g.graphNodes.get? idx with
      | none => rw [hg] at hidx; simp at hidx
      | some nd => rw [hg] at hidx; simp at hidx; exact ⟨nd, rfl, hidx⟩
    obtain ⟨nd, hgidx, hndid⟩ := hnd
    have hidxlt : idx < g.graphNodes.length := (List.get?_eq_some.mp hgidx).1
    have hnenil : g.graphNodes ≠ [] := by
      intro hnil
      rw [hnil] at hidxlt
      simp at hidxlt
    obtain ⟨lastE, hlastE⟩ : ∃ lastE, g.graphNodes.getLast? = some lastE := by
      cases hg : g.graphNodes.getLast? with
      | none => exact absurd (List.getLast?_eq_none_iff.mp hg) hnenil
      | some lastE => exact ⟨lastE, rfl⟩
    have hre : g.remove_node n =
      ({ g with
         graphNodes := (g.graphNodes.set idx lastE).dropLast,
         graphEdges := (g.graphEdges.filter
           (fun e => e.1 != idx && e.2.1 != idx)).map
           (fun e => (if e.1 = g.graphNodes.length - 1 then idx else e.1,
              if e.2.1 = g.graphNodes.length - 1 then idx else e.2.1, e.2.2)),
         node_id_map := ((g.graphNodes.set idx lastE).dropLast).enum.map
           (fun p => (p.snd.id, p.fst)),
         node_index_map := ((g.graphNodes.set idx lastE).dropLast).enum.map
           (fun p => (p.fst, p.snd.id)),
         edge_id_map := ((g.graphEdges.filter
           (fun e => e.1 != idx && e.2.1 != idx)).map
           (fun e => (if e.1 = g.graphNodes.length - 1 then idx else e.1,
              if e.2.1 = g.graphNodes.length - 1 then idx else e.2.1, e.2.2))).enum.map
           (fun p => (p.snd.snd.snd.id, p.fst)),
         edge_index_map := ((g.graphEdges.filter
           (fun e => e.1 != idx && e.2.1 != idx)).map
           (fun e => (if e.1 = g.graphNodes.length - 1 then idx else e.1,
              if e.2.1 = g.graphNodes.length - 1 then idx else e.2.1, e.2.2))).enum.map
           (fun p => (p.fst, p.snd.snd.snd.id)) },
       g.graphNodes.get? idx) := by
      unfold ContextGraph.remove_node
      rw [hlk, hlastE]
    have hnewmem : ∀ x ∈ (g.graphNodes.set idx lastE).dropLast, x.id ≠ n := by
      intro x hx
      obtain ⟨j, hj, hji, hgj⟩ := mem_swapRemove hlastE hx
      rw [← hndid]
      exact nodup_ids_ne hnodup hji hgj hgidx
    refine ⟨?_, ?_, ?_, ?_⟩
    · rw [hre]
      unfold ContextGraph.get_node
      simp only
      have : hmLookup (((g.graphNodes.set idx lastE).dropLast).enum.map
          (fun p => (p.snd.id, p.fst))) n = none := by
        apply hmLookup_none_of_all_ne
        intro p hp
        obtain ⟨q, hq, hpq⟩ := List.mem_map.mp hp
        have hqmem : q.snd ∈ (g.graphNodes.set idx lastE).dropLast := by
          have := List.enum_map_snd ((g.graphNodes.set idx lastE).dropLast)
          rw [← this]
          exact List.mem_map_of_mem Prod.snd hq
        rw [← hpq]
        exact hnewmem q.snd hqmem
      rw [this]
      rfl
    · rw [hre]
      intro e' he'
      simp only at he'
      obtain ⟨e, hef, hee⟩ := List.mem_map.mp he'
      have hmemf := List.mem_filter.mp hef
      have hcond := hmemf.2
      simp only [Bool.and_eq_true, bne_iff_ne, ne_eq] at hcond
      obtain ⟨hs1, hs2⟩ := hcond
      obtain ⟨h1, h2⟩ := hedges e hmemf.1
      have hsrc : e'.snd.snd = e.snd.snd := by rw [← hee]
      rw [hsrc]
      have hgs : ∃ nd1, g.graphNodes.get? e.1 = some nd1 ∧ nd1.id = e.snd.snd.source := by
        cases hg : g.graphNodes.get? e.1 with
        | none => rw [hg] at h1; simp at h1
        | some nd1 => rw [hg] at h1; simp at h1; exact ⟨nd1, rfl, h1⟩
      have hgt : ∃ nd2, g.graphNodes.get? e.snd.fst = some nd2 ∧ nd2.id = e.snd.snd.target := by
        cases hg : g.graphNodes.get? e.snd.fst with
        | none => rw [hg] at h2; simp at h2
        | some nd2 => rw [hg] at h2; simp at h2; exact ⟨nd2, rfl, h2⟩
      obtain ⟨nd1, hg1, hid1⟩ := hgs
      obtain ⟨nd2, hg2, hid2⟩ := hgt
      constructor
      · rw [← hid1, ← hndid]
        exact nodup_ids_ne hnodup hs1 hg1 hgidx
      · rw [← hid2, ← hndid]
        exact nodup_ids_ne hnodup hs2 hg2 hgidx
    · intro _
      rw [hre]
      exact ⟨nd, hgidx, hndid⟩
    · intro hnone
      exact absurd hndid (hnone nd (List.get?_mem hgidx))

/-- Witness for C4 on the concrete two-node, one-edge graph, removing the
edge's source node. -/
theorem claim_C4_remove_node_cascades_witness :
    demoC2.WF ∧
    (((demoC2.remove_node 0).1.get_node 0 = none) ∧
     (∀ e ∈ (demoC2.remove_node 0).1.graphEdges,
        e.snd.snd.source ≠ 0 ∧ e.snd.snd.target ≠ 0) ∧
     ((∃ en ∈ demoC2.graphNodes, en.id = 0) →
        ∃ en, (demoC2.remove_node 0).2 = some en ∧ en.id = 0) ∧
     ((∀ en ∈ demoC2.graphNodes, en.id ≠ 0) →
        (demoC2.remove_node 0).2 = none ∧ (demoC2.remove_node 0).1 = demoC2)) :=
  ⟨by decide, claim_C4_remove_node_cascades demoC2 0 (by decide)⟩

theorem filterMap_eq_map_of_some {β : Type} (l : List Nat) (f : Nat → Option β)
    (gf : Nat → β) (h : ∀ x ∈ l, f x = some (gf x)) :
    l.filterMap f = l.map gf := by
  induction l with
  | nil => rfl
  | cons a t ih =>
    rw [List.filterMap_cons, h a (List.mem_cons_self a t), List.map_cons,
      ih (fun x hx => h x (List.mem_cons_of_mem a hx))]

theorem range_map_lookup {α β : Type} (L : List α) (h : α → β) (d : β) :
    (List.range L.length).map (fun i => ((L.get? i).map h).getD d) = L.map h := by
  induction L with
  | nil => rfl
  | cons a t ih =>
    rw [List.length_cons, List.range_succ_eq_map, List.map_cons, List.map_map]
    exact congrArg (List.cons (h a)) ih

/-- C7: topological_sort fails with CycleDetected exactly when is_cyclic
is true; on success the returned NodeId list is a permutation of the node
id list (every node exactly once) and lists every edge's source id before
its target id. -/
theorem claim_C7_topological_sort_correct {N E C : Type}
    (g : ContextGraph N E C) (hWF : g.WF) :
    (g.topological_sort = Except.error GraphError.CycleDetected ↔
      g.is_cyclic = true) ∧
    (∀ l, g.topological_sort = Except.ok l →
      l.Perm (g.graphNodes.map (fun nd => nd.id)) ∧
      ∀ e ∈ g.graphEdges, ∃ i j, i < j ∧
        l.get? i = some e.snd.snd.source ∧ l.get? j = some e.snd.snd.target) := by
  obtain ⟨hnodup, hmap, hcomplete, hindex, hedges⟩ := hWF
  have hEB : EdgesBounded g.edgePairs g.graphNodes.length := by
    intro p hp
    obtain ⟨e, he, hpe⟩ := List.mem_map.mp hp
    obtain ⟨h1, h2⟩ := hedges e he
    have hb1 : e.1 < g.graphNodes.length := by
      cases hg : g.graphNodes.get? e.1 with
      | none => rw [hg] at h1; simp at h1
      | some nd => exact (List.get?_eq_some.mp hg).1
    have hb2 : e.snd.fst < g.graphNodes.length := by
      cases hg : g.graphNodes.get? e.snd.fst with
      | none => rw [hg] at h2; simp at h2
      | some nd => exact (List.get?_eq_some.mp hg).1
    rw [← hpe]
    exact ⟨hb1, hb2⟩
  constructor
  · unfold ContextGraph.topological_sort ContextGraph.is_cyclic
    cases hk : kahnSort g.edgePairs g.graphNodes.length with
    | some sorted =>
      simp only [hk]
      constructor
      · intro h
        exact absurd h (by simp)
      · intro hcy
        exfalso
        have hns := (kahnSort_isSome_iff _ _ hEB).mp (by rw [hk]; rfl)
        exact hns ((isCyclicB_iff _ _ hEB).mp hcy)
    | none =>
      simp only [hk]
      constructor
      · intro _
        have hnotsome : ¬ (kahnSort g.edgePairs g.graphNodes.length).isSome = true := by
          rw [hk]
          simp
        have hcyc : HasCycle g.edgePairs := by
          by_contra hac
          exact hnotsome ((kahnSort_isSome_iff _ _ hEB).mpr hac)
        exact (isCyclicB_iff _ _ hEB).mpr hcyc
      · intro _
        trivial
  · intro l hl
    unfold ContextGraph.topological_sort at hl
    cases hk : kahnSort g.edgePairs g.graphNodes.length with
    | none =>
      simp only [hk] at hl
      exact Except.noConfusion hl
    | some sorted =>
      simp only [hk] at hl
      have hleq : l = sorted.filterMap (fun idx => hmLookup g.node_index_map idx) := by
        cases hl
        rfl
      have hperm := kahnSort_perm _ _ hk
      have hsome : ∀ x ∈ sorted, hmLookup g.node_index_map x
          = some (((g.graphNodes.get? x).map (fun nd => nd.id)).getD 0) := by
        intro x hx
        have hxr : x ∈ List.range g.graphNodes.length := hperm.mem_iff.mp hx
        have hxlt : x < g.graphNodes.length := List.mem_range.mp hxr
        have h1 := hindex x hxr
        cases hg : g.graphNodes.get? x with
        | none =>
          exact absurd (List.get?_eq_none.mp hg) (Nat.not_le.mpr hxlt)
        | some nd =>
          rw [h1, hg]
          rfl
      have hlmap : l = sorted.map
          (fun i => ((g.graphNodes.get? i).map (fun nd => nd.id)).getD 0) :=
        hleq.trans (filterMap_eq_map_of_some sorted _ _ hsome)
      constructor
      · rw [hlmap]
        have h2 := hperm.map
          (fun i => ((g.graphNodes.get? i).map (fun nd => nd.id)).getD 0)
        have h3 := range_map_lookup g.graphNodes (fun nd => nd.id) 0
        rw [h3] at h2
        exact h2
      · intro e he
        have hpair : (e.1, e.snd.fst) ∈ g.edgePairs := by
          unfold ContextGraph.edgePairs
          exact List.mem_map_of_mem _ he
        obtain ⟨i, j, hij, hi, hj⟩ := kahnSort_ordered _ _ hEB hk e.1 e.snd.fst hpair
        obtain ⟨h1, h2⟩ := hedges e he
        refine ⟨i, j, hij, ?_, ?_⟩
        · rw [hlmap, List.get?_eq_getElem?, List.getElem?_map,
            ← List.get?_eq_getElem?, hi]
          simp only [Option.map_some']
          rw [h1]
          rfl
        · rw [hlmap, List.get?_eq_getElem?, List.getElem?_map,
            ← List.get?_eq_getElem?, hj]
          simp only [Option.map_some']
          rw [h2]
          rfl

/-- Witness for C7 on the concrete two-node, one-edge graph. -/
theorem claim_C7_topological_sort_correct_witness :
    demoC2.WF ∧
    ((demoC2.topological_sort = Except.error GraphError.CycleDetected ↔
       demoC2.is_cyclic = true) ∧
     (∀ l, demoC2.topological_sort = Except.ok l →
       l.Perm (demoC2.graphNodes.map (fun nd => nd.id)) ∧
       ∀ e ∈ demoC2.graphEdges, ∃ i j, i < j ∧
         l.get? i = some e.snd.snd.source ∧ l.get? j = some e.snd.snd.target)) :=
  ⟨by decide, claim_C7_topological_sort_correct demoC2 (by decide)⟩

/-- CidEdgeType from src/cid_dag.rs. -/
inductive CidEdgeType where
  | Causal
  | Reference
  | Merge
  | Fork
  deriving DecidableEq, Repr

/-- CidEdge from src/cid_dag.rs (JSON metadata values modelled as
strings). -/
structure CidEdge where
  edge_type : CidEdgeType
  metadata : List (String × String) := []
  deriving DecidableEq

/-- CidNode from src/cid_dag.rs; Cids are modelled as Nat. -/
structure CidNode (T : Type) where
  cid : Nat
  content : T
  timestamp : Nat
  metadata : List (String × String) := []
  deriving DecidableEq

/-- CidDag from src/cid_dag.rs, wrapping a daggy Dag: node weights listed
by NodeIndex position, edges as (source index, target index, weight)
triples by EdgeIndex position, the cid/index HashMaps, and the
incrementally maintained root and leaf cid vectors. -/
structure CidDag (T : Type) where
  dagNodes : List (CidNode T)
  dagEdges : List (Nat × Nat × CidEdge)
  cid_index : List (Nat × Nat)
  node_to_cid : List (Nat × Nat)
  roots : List Nat
  leaves : List Nat
  deriving DecidableEq

/-- CidDag::new. -/
def CidDag.new (T : Type) : CidDag T := ⟨[], [], [], [], [], []⟩

/-- The (source index, target index) pairs of the wrapped Dag. -/
def CidDag.edgeIdxPairs (d : CidDag T) : List (Nat × Nat) :=
  d.dagEdges.map (fun e => (e.1, e.2.1))

/-- CidDag::add_node: reject a duplicate cid, else insert the node, record
both mappings, and push the cid onto both the root and the leaf vector. -/
def CidDag.add_node (d : CidDag T) (cid : Nat) (content : T)
    (timestamp : Nat) : CidDag T × Option GraphError :=
  if (hmLookup d.cid_index cid).isSome then
    (d, some (GraphError.DuplicateCid cid))
  else
    let node : CidNode T :=
      { cid := cid, content := content, timestamp := timestamp, metadata := [] }
    let node_idx := d.dagNodes.length
    ({ d with dagNodes := d.dagNodes ++ [node],
              cid_index := hmInsert d.cid_index cid node_idx,
              node_to_cid := hmInsert d.node_to_cid node_idx cid,
              roots := d.roots ++ [cid],
              leaves := d.leaves ++ [cid] }, none)

/-- daggy's Dag::add_edge: append the edge; when must_check_for_cycle
holds (a self loop, or the source has an incoming edge while the target
has an outgoing edge) the grown graph is tested with is_cyclic_directed
and on failure the just-appended edge is removed again and WouldCycle is
returned — the net effect of a failure is an unchanged dag.  none models
Err(WouldCycle). -/
def CidDag.dagAddEdge (d : CidDag T) (a b : Nat) (w : CidEdge) :
    Option (CidDag T) :=
  let check := (a == b) || ((d.dagEdges.any (fun e => e.snd.fst == a)) &&
                            (d.dagEdges.any (fun e => e.fst == b)))
  let newEdges := d.dagEdges ++ [(a, b, w)]
  if check && isCyclicB (newEdges.map (fun e => (e.1, e.2.1))) d.dagNodes.length
  then none
  else some { d with dagEdges := newEdges }

/-- CidDag::add_causal_edge: resolve both cids (CidNotFound on a missing
one), let the dag reject a cycle-closing edge (CycleDetected), and on
success drop next from the roots and previous from the leaves. -/
def CidDag.add_causal_edge (d : CidDag T) (previous next : Nat) :
    CidDag T × Option GraphError :=
  match hmLookup d.cid_index previous with
  | none => (d, some (GraphError.CidNotFound previous))
  | some prev_idx =>
    match hmLookup d.cid_index next with
    | none => (d, some (GraphError.CidNotFound next))
    | some next_idx =>
      match d.dagAddEdge prev_idx next_idx { edge_type := CidEdgeType.Causal } with
      | none => (d, some GraphError.CycleDetected)
      | some d' =>
        ({ d' with roots := d'.roots.filter (fun c => c != next),
                   leaves := d'.leaves.filter (fun c => c != previous) }, none)

/-- CidDag::add_reference: like add_causal_edge but with a Reference edge
and no root/leaf bookkeeping. -/
def CidDag.add_reference (d : CidDag T) (from_ to_ : Nat) :
    CidDag T × Option GraphError :=
  match hmLookup d.cid_index from_ with
  | none => (d, some (GraphError.CidNotFound from_))
  | some from_idx =>
    match hmLookup d.cid_index to_ with
    | none => (d, some (GraphError.CidNotFound to_))
    | some to_idx =>
      match d.dagAddEdge from_idx to_idx { edge_type := CidEdgeType.Reference } with
      | none => (d, some GraphError.CycleDetected)
      | some d' => (d', none)

/-- CidDag::get_node. -/
def CidDag.get_node (d : CidDag T) (cid : Nat) : Option (CidNode T) :=
  (hmLookup d.cid_index cid).bind (fun idx => d.dagNodes.get? idx)

/-- The causal-parent cids of a node index in daggy's parents-iteration
order (incoming edges, most recently added first), keeping only Causal
edges and parents that have a node_to_cid entry — the filter_map inside
verify_chain. -/
def CidDag.causalParents (d : CidDag T) (idx : Nat) : List Nat :=
  (d.dagEdges.reverse).filterMap (fun e =>
    if e.snd.fst = idx ∧ e.snd.snd.edge_type = CidEdgeType.Causal then
      hmLookup d.node_to_cid e.fst
    else none)

/-- One step of the verify_chain walk: parents[0], the first causal parent
of a cid; none when the cid is unknown or has no causal parent. -/
def CidDag.stepP (d : CidDag T) (c : Nat) : Option Nat :=
  (hmLookup d.cid_index c).bind (fun idx => (d.causalParents idx).head?)

/-- The loop of CidDag::verify_chain.  chain is the vector built so far
(from first, then each chosen parent appended); the fuel only bounds the
loop and, on a well-formed (acyclic) dag, is never exhausted: the walk
reaches a parentless node within dagNodes.length steps. -/
def CidDag.verifyChainAux (d : CidDag T) (to_root : Option Nat) :
    Nat → Nat → List Nat → Except GraphError (List Nat)
  | 0, _, _ => .error GraphError.ChainVerificationFailed
  | fuel + 1, current, chain =>
    match hmLookup d.cid_index current with
    | none => .ok chain.reverse
    | some idx =>
      match (d.causalParents idx).head? with
      | none =>
        match to_root with
        | some r =>
          if current = r then .ok chain.reverse
          else .error GraphError.ChainVerificationFailed
        | none => .ok chain.reverse
      | some p => d.verifyChainAux to_root fuel p (chain ++ [p])

/-- CidDag::verify_chain. -/
def CidDag.verify_chain (d : CidDag T) (from_ : Nat) (to_root : Option Nat) :
    Except GraphError (List Nat) :=
  d.verifyChainAux to_root (d.dagNodes.length + 1) from_ [from_]

/-- Well-formedness of a CidDag, maintained by the construction API:
cid_index entries point at nodes bearing the key cid, every node index is
found by looking up its node's cid, node_to_cid inverts the indexing, the
edges stay inside the node range, and the dag is acyclic (daggy rejects
every cycle-closing edge). -/
def CidDag.WF (d : CidDag T) : Prop :=
  (∀ p ∈ d.cid_index,
    (d.dagNodes.get? p.2).map (fun nd => nd.cid) = some p.1) ∧
  (∀ i ∈ List.range d.dagNodes.length,
    hmLookup d.cid_index (((d.dagNodes.get? i).map (fun nd => nd.cid)).getD 0)
      = some i) ∧
  (∀ i ∈ List.range d.dagNodes.length,
    hmLookup d.node_to_cid i = (d.dagNodes.get? i).map (fun nd => nd.cid)) ∧
  (∀ e ∈ d.dagEdges, e.fst < d.dagNodes.length ∧ e.snd.fst < d.dagNodes.length) ∧
  isCyclicB d.edgeIdxPairs d.dagNodes.length = false

instance (d : CidDag T) : Decidable d.WF := by
  unfold CidDag.WF; infer_instance

theorem edgeIdxPairs_bounded {T : Type} {d : CidDag T} (hWF : d.WF) :
    EdgesBounded d.edgeIdxPairs d.dagNodes.length := by
  intro p hp
  obtain ⟨e, he, hpe⟩ := List.mem_map.mp hp
  obtain ⟨h1, h2⟩ := hWF.2.2.2.1 e he
  rw [← hpe]
  exact ⟨h1, h2⟩

/-- C5: an add_causal_edge call whose edge would close a cycle — the
target's index already reaches the source's index through existing edges —
fails with CycleDetected and returns the dag completely unchanged: same
nodes, same edges, same root and leaf sets. -/
theorem claim_C5_add_causal_edge_cycle_rejected {T : Type}
    (d : CidDag T) (previous next pi ni : Nat) (hWF : d.WF)
    (hp : hmLookup d.cid_index previous = some pi)
    (hn : hmLookup d.cid_index next = some ni)
    (hcyc : Reaches d.edgeIdxPairs ni pi) :
    d.add_causal_edge previous next = (d, some GraphError.CycleDetected) := by
  have hEB := edgeIdxPairs_bounded hWF
  have hacyc : ¬ HasCycle d.edgeIdxPairs := by
    intro hc
    have h5 := hWF.2.2.2.2
    rw [(isCyclicB_iff _ _ hEB).mpr hc] at h5
    exact Bool.noConfusion h5
  have hnew : (d.dagEdges ++ [(pi, ni, ({ edge_type := CidEdgeType.Causal } : CidEdge))]).map
      (fun e => (e.1, e.2.1)) = d.edgeIdxPairs ++ [(pi, ni)] := by
    rw [List.map_append]
    rfl
  have hpib : pi < d.dagNodes.length := by
    have := hWF.1 (previous, pi) (hmLookup_mem _ _ _ hp)
    cases hg : d.dagNodes.get? pi with
    | none => rw [hg] at this; simp at this
    | some nd => exact (List.get?_eq_some.mp hg).1
  have hnib : ni < d.dagNodes.length := by
    have := hWF.1 (next, ni) (hmLookup_mem _ _ _ hn)
    cases hg : d.dagNodes.get? ni with
    | none => rw [hg] at this; simp at this
    | some nd => exact (List.get?_eq_some.mp hg).1
  have hEB2 : EdgesBounded (d.edgeIdxPairs ++ [(pi, ni)]) d.dagNodes.length := by
    intro p hp2
    rcases List.mem_append.mp hp2 with hp2 | hp2
    · exact hEB p hp2
    · rw [List.mem_singleton.mp hp2]
      exact ⟨hpib, hnib⟩
  have hcycnew : isCyclicB (d.edgeIdxPairs ++ [(pi, ni)]) d.dagNodes.length = true := by
    rw [isCyclicB_iff _ _ hEB2]
    exact (hasCycle_append_single_iff d.edgeIdxPairs pi ni hacyc).mpr hcyc
  have hcheck : ((pi == ni) || ((d.dagEdges.any (fun e => e.snd.fst == pi)) &&
      (d.dagEdges.any (fun e => e.fst == ni)))) = true := by
    by_cases hpn : pi = ni
    · simp [hpn]
    · have hne : ni ≠ pi := fun hh => hpn hh.symm
      rcases (Relation.ReflTransGen.cases_head hcyc) with heq | ⟨c, hstep, _⟩
      · exact absurd heq hne
      · rcases (Relation.ReflTransGen.cases_tail hcyc) with heq | ⟨c2, _, hstep2⟩
        · exact absurd heq hpn
        · simp only [Bool.or_eq_true, Bool.and_eq_true, List.any_eq_true]
          right
          constructor
          · obtain ⟨e, he, hpe⟩ := List.mem_map.mp hstep2
            refine ⟨e, he, ?_⟩
            have : e.snd.fst = pi := congrArg Prod.snd hpe
            simp [this]
          · obtain ⟨e, he, hpe⟩ := List.mem_map.mp hstep
            refine ⟨e, he, ?_⟩
            have : e.fst = ni := congrArg Prod.fst hpe
            simp [this]
  unfold CidDag.add_causal_edge
  rw [hp, hn]
  unfold CidDag.dagAddEdge
  simp only [hnew, hcheck, hcycnew, Bool.true_and, if_pos]

/-- The three-node causal chain with cids 1, 2, 3 and causal edges 1→2 and
2→3, built through the API. -/
def demoDag : CidDag Nat :=
  let d1 := ((CidDag.new Nat).add_node 1 10 100).1
  let d2 := (d1.add_node 2 20 200).1
  let d3 := (d2.add_node 3 30 300).1
  let d4 := (d3.add_causal_edge 1 2).1
  (d4.add_causal_edge 2 3).1

/-- Witness for C5: attempting the cycle-closing edge 3→1 on the chain
fails with CycleDetected and changes nothing (roots and leaves included). -/
theorem claim_C5_add_causal_edge_cycle_rejected_witness :
    (demoDag.WF ∧ hmLookup demoDag.cid_index 3 = some 2 ∧
     hmLookup demoDag.cid_index 1 = some 0 ∧
     Reaches demoDag.edgeIdxPairs 0 2) ∧
    demoDag.add_causal_edge 3 1 = (demoDag, some GraphError.CycleDetected) := by
  have h01 : EdgeRel demoDag.edgeIdxPairs 0 1 := by decide
  have h12 : EdgeRel demoDag.edgeIdxPairs 1 2 := by decide
  have hr : Reaches demoDag.edgeIdxPairs 0 2 :=
    Relation.ReflTransGen.head h01
      (Relation.ReflTransGen.head h12 Relation.ReflTransGen.refl)
  exact ⟨⟨by decide, by decide, by decide, hr⟩,
    claim_C5_add_causal_edge_cycle_rejected demoDag 3 1 2 0
      (by decide) (by decide) (by decide) hr⟩

theorem lookup_idx_lt {T : Type} {d : CidDag T} (hWF : d.WF) {c i : Nat}
    (h : hmLookup d.cid_index c = some i) : i < d.dagNodes.length := by
  have := hWF.1 (c, i) (hmLookup_mem _ _ _ h)
  cases hg : d.dagNodes.get? i with
  | none => rw [hg] at this; simp at this
  | some nd => exact (List.get?_eq_some.mp hg).1

/-- Iterates of the verify_chain parent step. -/
def CidDag.stepPIter (d : CidDag T) (c : Nat) : Nat → Option Nat
  | 0 => some c
  | k + 1 => (d.stepPIter c k).bind (fun x => d.stepP x)

theorem stepPIter_succ_head {T : Type} (d : CidDag T) (c : Nat) (k : Nat) :
    d.stepPIter c (k + 1) = (d.stepP c).bind (fun p => d.stepPIter p k) := by
  induction k with
  | zero =>
    show (some c).bind (fun x => d.stepP x) = _
    cases hs : d.stepP c with
    | none => simp [hs]
    | some p => simp [hs, CidDag.stepPIter]
  | succ k ih =>
    show (d.stepPIter c (k + 1)).bind (fun x => d.stepP x) = _
    rw [ih]
    cases hs : d.stepP c with
    | none => simp
    | some p =>
      simp only [Option.some_bind]
      rfl

/-- A successful parent step yields, on a well-formed dag, the indices of
both cids and an edge from the parent's index to the child's index. -/
theorem stepP_edge {T : Type} {d : CidDag T} (hWF : d.WF) {x p : Nat}
    (h : d.stepP x = some p) :
    ∃ ix ip, hmLookup d.cid_index x = some ix ∧
      hmLookup d.cid_index p = some ip ∧ ip < d.dagNodes.length ∧
      ix < d.dagNodes.length ∧ (ip, ix) ∈ d.edgeIdxPairs := by
  unfold CidDag.stepP at h
  cases hlx : hmLookup d.cid_index x with
  | none => rw [hlx] at h; simp at h
  | some ix =>
    rw [hlx] at h
    simp only [Option.some_bind] at h
    have hp : p ∈ d.causalParents ix := List.mem_of_mem_head? h
    unfold CidDag.causalParents at hp
    obtain ⟨e, he, heq⟩ := List.mem_filterMap.mp hp
    have he2 : e ∈ d.dagEdges := List.mem_reverse.mp he
    by_cases hcond : e.snd.fst = ix ∧ e.snd.snd.edge_type = CidEdgeType.Causal
    · rw [if_pos hcond] at heq
      have hbound := hWF.2.2.2.1 e he2
      have hfb : e.fst < d.dagNodes.length := hbound.1
      have hn2c := hWF.2.2.1 e.fst (List.mem_range.mpr hfb)
      have hmapc : (d.dagNodes.get? e.fst).map (fun nd => nd.cid) = some p :=
        hn2c.symm.trans heq
      have hcompl := hWF.2.1 e.fst (List.mem_range.mpr hfb)
      rw [hmapc] at hcompl
      refine ⟨ix, e.fst, rfl, hcompl, hfb, lookup_idx_lt hWF hlx, ?_⟩
      have : (e.fst, e.snd.fst) ∈ d.edgeIdxPairs := List.mem_map_of_mem _ he2
      rw [hcond.1] at this
      exact this
    · rw [if_neg hcond] at heq
      exact absurd heq (by simp)

/-- On a well-formed (acyclic) dag, the parent walk from any present cid
reaches a node without a parent step within dagNodes.length steps. -/
theorem stepP_terminates {T : Type} {d : CidDag T} (hWF : d.WF) {c : Nat}
    (hc : (hmLookup d.cid_index c).isSome) :
    ∃ m, m ≤ d.dagNodes.length ∧
      ∃ cm, d.stepPIter c m = some cm ∧ d.stepP cm = none := by
  by_contra hno
  push_neg at hno
  have hdef : ∀ k, k ≤ d.dagNodes.length + 1 → (d.stepPIter c k).isSome := by
    intro k
    induction k with
    | zero => intro _; simp [CidDag.stepPIter]
    | succ k ih =>
      intro hk
      have hsome := ih (by omega)
      cases hck : d.stepPIter c k with
      | none => rw [hck] at hsome; simp at hsome
      | some ck =>
        have hne := hno k (by omega) ck hck
        show (d.stepPIter c (k + 1)).isSome
        have hiter : d.stepPIter c (k + 1) = (d.stepPIter c k).bind (fun x => d.stepP x) := rfl
        rw [hiter, hck]
        cases hs : d.stepP ck with
        | none => exact absurd hs hne
        | some p => simp [hs]
  have hck : ∀ k, k ≤ d.dagNodes.length + 1 →
      d.stepPIter c k = some ((d.stepPIter c k).getD 0) := by
    intro k hk
    cases hs : d.stepPIter c k with
    | none => have := hdef k hk; rw [hs] at this; simp at this
    | some x => rfl
  have hstep : ∀ k, k < d.dagNodes.length + 1 →
      d.stepP ((d.stepPIter c k).getD 0) = some ((d.stepPIter c (k + 1)).getD 0) := by
    intro k hk
    have h1 := hck k (by omega)
    have h2 := hck (k + 1) (by omega)
    have hiter : d.stepPIter c (k + 1) = (d.stepPIter c k).bind (fun x => d.stepP x) := rfl
    rw [h1] at hiter
    simp only [Option.some_bind] at hiter
    rw [← hiter]
    exact h2
  have hlk : ∀ k, k ≤ d.dagNodes.length + 1 →
      hmLookup d.cid_index ((d.stepPIter c k).getD 0)
        = some ((hmLookup d.cid_index ((d.stepPIter c k).getD 0)).getD 0) ∧
      (hmLookup d.cid_index ((d.stepPIter c k).getD 0)).getD 0 < d.dagNodes.length := by
    intro k hk
    cases k with
    | zero =>
      have hcf0 : (d.stepPIter c 0).getD 0 = c := by simp [CidDag.stepPIter]
      rw [hcf0]
      cases hl : hmLookup d.cid_index c with
      | none => rw [hl] at hc; simp at hc
      | some i0 =>
        refine ⟨by simp, ?_⟩
        simpa using lookup_idx_lt hWF hl
    | succ k =>
      have hs := hstep k (by omega)
      obtain ⟨ix, ip, hlx2, hlp, hipb, hixb, hmem⟩ := stepP_edge hWF hs
      rw [hlp]
      exact ⟨by simp, by simpa using hipb⟩
  have hedge : ∀ k, k < d.dagNodes.length + 1 →
      ((hmLookup d.cid_index ((d.stepPIter c (k + 1)).getD 0)).getD 0,
       (hmLookup d.cid_index ((d.stepPIter c k).getD 0)).getD 0) ∈ d.edgeIdxPairs := by
    intro k hk
    have hs := hstep k hk
    obtain ⟨ix, ip, hlx2, hlp, hipb, hixb, hmem⟩ := stepP_edge hWF hs
    rw [hlx2, hlp]
    simpa using hmem
  have hreach : ∀ aa bb, aa ≤ bb → bb ≤ d.dagNodes.length + 1 →
      Reaches d.edgeIdxPairs
        ((hmLookup d.cid_index ((d.stepPIter c bb).getD 0)).getD 0)
        ((hmLookup d.cid_index ((d.stepPIter c aa).getD 0)).getD 0) := by
    intro aa bb
    induction bb with
    | zero =>
      intro h1 _
      have : aa = 0 := by omega
      subst this
      exact Relation.ReflTransGen.refl
    | succ bb ih =>
      intro h1 h2
      rcases Nat.lt_or_ge aa (bb + 1) with hlt2 | hge2
      · have hr := ih (by omega) (by omega)
        exact Relation.ReflTransGen.head (hedge bb (by omega)) hr
      · have : aa = bb + 1 := by omega
        subst this
        exact Relation.ReflTransGen.refl
  have hcardlt : Fintype.card (Fin d.dagNodes.length)
      < Fintype.card (Fin (d.dagNodes.length + 2)) := by
    simp
  obtain ⟨a, b, hab, habeq⟩ := Fintype.exists_ne_map_eq_of_card_lt
    (fun k : Fin (d.dagNodes.length + 2) =>
      (⟨(hmLookup d.cid_index ((d.stepPIter c k.val).getD 0)).getD 0,
        (hlk k.val (Nat.lt_succ_iff.mp k.isLt)).2⟩ : Fin d.dagNodes.length))
    hcardlt
  have hmain : ∀ x y : Fin (d.dagNodes.length + 2), x.val < y.val →
      (hmLookup d.cid_index ((d.stepPIter c x.val).getD 0)).getD 0
        = (hmLookup d.cid_index ((d.stepPIter c y.val).getD 0)).getD 0 → False := by
    intro x y hxy hidx
    have hyb : y.val ≤ d.dagNodes.length + 1 := Nat.lt_succ_iff.mp y.isLt
    have hcyc : HasCycle d.edgeIdxPairs := by
      refine ⟨(hmLookup d.cid_index ((d.stepPIter c (x.val + 1)).getD 0)).getD 0,
              (hmLookup d.cid_index ((d.stepPIter c x.val).getD 0)).getD 0,
              hedge x.val (by omega), ?_⟩
      rw [hidx]
      exact hreach (x.val + 1) y.val (by omega) hyb
    have hEB := edgeIdxPairs_bounded hWF
    have h5 := hWF.2.2.2.2
    rw [(isCyclicB_iff _ _ hEB).mpr hcyc] at h5
    exact Bool.noConfusion h5
  have hfeq : (hmLookup d.cid_index ((d.stepPIter c a.val).getD 0)).getD 0
      = (hmLookup d.cid_index ((d.stepPIter c b.val).getD 0)).getD 0 := by
    have := congrArg Fin.val habeq
    simpa using this
  rcases Nat.lt_or_ge a.val b.val with hlt | hge
  · exact hmain a b hlt hfeq
  · have hlt2 : b.val < a.val := by
      rcases Nat.lt_or_ge b.val a.val with h | h
      · exact h
      · exact absurd (Fin.val_injective (by omega)) hab
    exact hmain b a hlt2 hfeq.symm

theorem verifyChainAux_spec {T : Type} {d : CidDag T} (hWF : d.WF) :
    ∀ m fuel current chain, m < fuel →
    (hmLookup d.cid_index current).isSome = true →
    ∀ cm, d.stepPIter current m = some cm → d.stepP cm = none →
    ∃ tail,
      (∀ tr, d.verifyChainAux tr fuel current chain =
        match tr with
        | none => .ok ((chain ++ tail).reverse)
        | some r => if cm = r then .ok ((chain ++ tail).reverse)
                    else .error GraphError.ChainVerificationFailed) ∧
      (current :: tail).getLast? = some cm ∧
      List.Chain' (fun a b => d.stepP a = some b) (current :: tail) ∧
      (hmLookup d.cid_index cm).isSome = true := by
  intro m
  induction m with
  | zero =>
    intro fuel current chain hfuel hcur cm hiter hnone
    have hcm : cm = current := by simpa [CidDag.stepPIter] using hiter.symm
    subst hcm
    cases fuel with
    | zero => omega
    | succ fuel =>
      refine ⟨[], ?_, rfl, List.chain'_singleton cm, hcur⟩
      intro tr
      cases hl : hmLookup d.cid_index cm with
      | none => rw [hl] at hcur; simp at hcur
      | some idx =>
        have hpar : (d.causalParents idx).head? = none := by
          unfold CidDag.stepP at hnone
          rw [hl] at hnone
          simpa using hnone
        simp only [CidDag.verifyChainAux, hl, hpar]
        cases tr with
        | none => simp
        | some r =>
          by_cases hr : cm = r
          · simp [hr]
          · simp [hr]
  | succ m ih =>
    intro fuel current chain hfuel hcur cm hiter hnone
    cases fuel with
    | zero => omega
    | succ fuel =>
      rw [stepPIter_succ_head] at hiter
      cases hp : d.stepP current with
      | none => rw [hp] at hiter; simp at hiter
      | some p =>
        rw [hp] at hiter
        simp only [Option.some_bind] at hiter
        obtain ⟨ix, ip, hlx, hlp, _, _, _⟩ := stepP_edge hWF hp
        obtain ⟨tail, hrun, hlast, hchain, hcmlook⟩ :=
          ih fuel p (chain ++ [p]) (by omega) (by rw [hlp]; rfl) cm hiter hnone
        refine ⟨p :: tail, ?_, ?_, ?_, hcmlook⟩
        · intro tr
          have hpar : (d.causalParents ix).head? = some p := by
            unfold CidDag.stepP at hp
            rw [hlx] at hp
            simpa using hp
          have happ : (chain ++ [p]) ++ tail = chain ++ (p :: tail) := by
            rw [List.append_assoc]
            rfl
          have hthis := hrun tr
          rw [happ] at hthis
          simp only [CidDag.verifyChainAux, hlx, hpar]
          exact hthis
        · exact hlast
        · exact List.chain'_cons.mpr ⟨hp, hchain⟩

/-- C6: for every cid present in a well-formed dag, verify_chain walks the
causal parents to a parentless root and returns the chain root first, the
queried cid last, each element the chosen first causal parent of its
successor; with to_root = some r the call succeeds exactly when that
terminal root equals r, and otherwise fails with ChainVerificationFailed. -/
theorem claim_C6_verify_chain_correct {T : Type} (d : CidDag T)
    (from_ r : Nat) (hWF : d.WF)
    (hfrom : (hmLookup d.cid_index from_).isSome = true) :
    ∃ chain root,
      d.verify_chain from_ none = .ok chain ∧
      chain.head? = some root ∧
      chain.getLast? = some from_ ∧
      (∃ ri, hmLookup d.cid_index root = some ri ∧ d.causalParents ri = []) ∧
      List.Chain' (fun a b => d.stepP b = some a) chain ∧
      (d.verify_chain from_ (some r) =
        if root = r then .ok chain
        else .error GraphError.ChainVerificationFailed) := by
  obtain ⟨m, hm, cm, hiter, hnone⟩ := stepP_terminates hWF hfrom
  obtain ⟨tail, hrun, hlast, hchain, hcmlook⟩ :=
    verifyChainAux_spec hWF m (d.dagNodes.length + 1) from_ [from_]
      (by omega) hfrom cm hiter hnone
  have hsingle : ([from_] ++ tail) = from_ :: tail := rfl
  refine ⟨(from_ :: tail).reverse, cm, ?_, ?_, ?_, ?_, ?_, ?_⟩
  · have hthis := hrun none
    unfold CidDag.verify_chain
    rw [hthis, hsingle]
  · rw [List.head?_reverse]
    exact hlast
  · rw [List.getLast?_reverse]
    rfl
  · cases hl : hmLookup d.cid_index cm with
    | none => rw [hl] at hcmlook; simp at hcmlook
    | some ri =>
      refine ⟨ri, rfl, ?_⟩
      unfold CidDag.stepP at hnone
      rw [hl] at hnone
      simp only [Option.some_bind] at hnone
      exact List.head?_eq_none_iff.mp hnone
  · rw [List.chain'_reverse]
    exact hchain
  · have hthis := hrun (some r)
    unfold CidDag.verify_chain
    rw [hthis, hsingle]

/-- Witness for C6 on the three-node chain: verify from the leaf cid 3
with claimed root 1. -/
theorem claim_C6_verify_chain_correct_witness :
    (demoDag.WF ∧ (hmLookup demoDag.cid_index 3).isSome = true) ∧
    (∃ chain root,
      demoDag.verify_chain 3 none = .ok chain ∧
      chain.head? = some root ∧
      chain.getLast? = some 3 ∧
      (∃ ri, hmLookup demoDag.cid_index root = some ri ∧
        demoDag.causalParents ri = []) ∧
      List.Chain' (fun a b => demoDag.stepP b = some a) chain ∧
      (demoDag.verify_chain 3 (some 1) =
        if root = 1 then .ok chain
        else .error GraphError.ChainVerificationFailed)) :=
  ⟨⟨by decide, by decide⟩,
    claim_C6_verify_chain_correct demoDag 3 1 (by decide) (by decide)⟩

/-- EventNode from src/cid_dag.rs. -/
structure EventNode where
  event_id : String
  aggregate_id : String
  event_type : String
  sequence : Nat
  payload_cid : Option Nat
  deriving DecidableEq

/-- EventDag, the Event Store specialization CidDag<EventNode>. -/
abbrev EventDag := CidDag EventNode

/-- EventDag::add_event: add_node first, then (with the question-mark
operator propagating failures while keeping the mutations already made)
the causal edge to the previous event, then the best-effort payload
reference whose error is discarded with .ok(). -/
def EventDag.add_event (d : EventDag) (event_cid : Nat)
    (previous_cid : Option Nat) (event : EventNode) (timestamp : Nat) :
    EventDag × Option GraphError :=
  let payload_cid := event.payload_cid
  let addRef := fun (d' : EventDag) =>
    match payload_cid with
    | some pc => ((d'.add_reference event_cid pc).1, (none : Option GraphError))
    | none => (d', none)
  let r1 := d.add_node event_cid event timestamp
  match r1.2 with
  | some err => (r1.1, some err)
  | none =>
    match previous_cid with
    | some prev =>
      let r2 := r1.1.add_causal_edge prev event_cid
      match r2.2 with
      | some err => (r2.1, some err)
      | none => addRef r2.1
    | none => addRef r1.1

/-- A concrete event payload. -/
def demoEvent : EventNode :=
  { event_id := "evt-1", aggregate_id := "agg-1", event_type := "Created",
    sequence := 1, payload_cid := none }

/-- C10 counterexample: with previous_cid equal to the (fresh) event_cid —
both satisfy the claim's hypotheses, event_cid fresh and previous_cid not
present in the dag — add_event fails with CycleDetected (the self edge is
rejected by the dag), not with CidNotFound(previous_cid) as the claim
states. -/
theorem claim_C10_counterexample :
    (EventDag.add_event (CidDag.new EventNode) 0 (some 0) demoEvent 5).2
      = some GraphError.CycleDetected ∧
    some GraphError.CycleDetected ≠ some (GraphError.CidNotFound 0) := by
  constructor
  · decide
  · decide

/-- C10 amended (previous_cid additionally different from event_cid):
add_event is not atomic — it returns CidNotFound(previous_cid), yet the
event node stays inserted: get_node finds it and the cid sits in both the
root and the leaf vector. -/
theorem claim_C10_add_event_not_atomic (d : EventDag)
    (event_cid prev : Nat) (event : EventNode) (ts : Nat)
    (hfresh : hmLookup d.cid_index event_cid = none)
    (hprev : hmLookup d.cid_index prev = none)
    (hne : prev ≠ event_cid) :
    (EventDag.add_event d event_cid (some prev) event ts).2
      = some (GraphError.CidNotFound prev) ∧
    (EventDag.add_event d event_cid (some prev) event ts).1.get_node event_cid
      = some { cid := event_cid, content := event, timestamp := ts, metadata := [] } ∧
    event_cid ∈ (EventDag.add_event d event_cid (some prev) event ts).1.roots ∧
    event_cid ∈ (EventDag.add_event d event_cid (some prev) event ts).1.leaves := by
  have hfresh2 : (hmLookup d.cid_index event_cid).isSome = false := by
    rw [hfresh]
    rfl
  have hd1 : d.add_node event_cid event ts =
      ({ d with
          dagNodes := d.dagNodes ++
            [{ cid := event_cid, content := event, timestamp := ts, metadata := [] }],
          cid_index := hmInsert d.cid_index event_cid d.dagNodes.length,
          node_to_cid := hmInsert d.node_to_cid d.dagNodes.length event_cid,
          roots := d.roots ++ [event_cid],
          leaves := d.leaves ++ [event_cid] }, none) := by
    unfold CidDag.add_node
    rw [hfresh2]
    rfl
  have hlkprev : hmLookup (hmInsert d.cid_index event_cid d.dagNodes.length) prev
      = none := by
    rw [hmLookup_insert_ne _ _ _ _ (fun hh => hne hh.symm)]
    exact hprev
  have hrun : EventDag.add_event d event_cid (some prev) event ts =
      ((d.add_node event_cid event ts).1, some (GraphError.CidNotFound prev)) := by
    unfold EventDag.add_event
    rw [hd1]
    simp only
    unfold CidDag.add_causal_edge
    simp only [hlkprev]
  rw [hrun, hd1]
  refine ⟨rfl, ?_, ?_, ?_⟩
  · unfold CidDag.get_node
    simp only [hmLookup_insert_self]
    rw [Option.some_bind]
    exact List.get?_concat_length d.dagNodes _
  · simp
  · simp

/-- Witness for the amended C10 at the empty dag, event cid 0 and a
distinct missing previous cid 1. -/
theorem claim_C10_add_event_not_atomic_witness :
    (hmLookup (CidDag.new EventNode).cid_index 0 = none ∧
     hmLookup (CidDag.new EventNode).cid_index 1 = none ∧
     (1 : Nat) ≠ 0) ∧
    ((EventDag.add_event (CidDag.new EventNode) 0 (some 1) demoEvent 5).2
       = some (GraphError.CidNotFound 1) ∧
     (EventDag.add_event (CidDag.new EventNode) 0 (some 1) demoEvent 5).1.get_node 0
       = some { cid := 0, content := demoEvent, timestamp := 5, metadata := [] } ∧
     0 ∈ (EventDag.add_event (CidDag.new EventNode) 0 (some 1) demoEvent 5).1.roots ∧
     0 ∈ (EventDag.add_event (CidDag.new EventNode) 0 (some 1) demoEvent 5).1.leaves) :=
  ⟨⟨rfl, rfl, by decide⟩,
    claim_C10_add_event_not_atomic (CidDag.new EventNode) 0 1 demoEvent 5 rfl rfl
      (by decide)⟩

/-- WorkflowGraphError from src/workflow_graph.rs. -/
inductive WorkflowGraphError where
  | StateNotFound (id : Nat)
  | NoInitialState
  | NoTerminalState
  | UnreachableStates (total reachable : Nat)
  | InvalidTransition (descr : String)
  deriving DecidableEq, Repr

/-- A workflow state: the WorkflowState capability surface that validate
uses — identity (StateId modelled as Nat) and the terminal flag. -/
structure WState where
  sid : Nat
  terminal : Bool
  deriving DecidableEq

/-- WorkflowGraph from src/workflow_graph.rs: states by StableGraph node
index, transitions as (source index, target index) pairs (the transition
trait object's guards, IO types and enrichment never enter validate), and
the StateId-to-node-index map with its inverse. -/
structure WorkflowGraph where
  states : List WState
  transitions : List (Nat × Nat)
  state_to_node : List (Nat × Nat)
  node_to_state : List (Nat × Nat)
  deriving DecidableEq

/-- initial_states: the states (in node index order) with zero incoming
transitions. -/
def WorkflowGraph.initial_states (w : WorkflowGraph) : List WState :=
  ((List.range w.states.length).filter
    (fun i => w.transitions.all (fun t => t.snd != i))).filterMap
    (fun i => w.states.get? i)

/-- has_terminal_states. -/
def WorkflowGraph.has_terminal_states (w : WorkflowGraph) : Bool :=
  w.states.any (fun s => s.terminal)

/-- The node indices of the initial states, as find_reachable_states
resolves them through state_to_node (an unknown id is skipped). -/
def WorkflowGraph.initialIdxSet (w : WorkflowGraph) : Finset Nat :=
  (w.initial_states.filterMap (fun s => hmLookup w.state_to_node s.sid)).toFinset

/-- find_reachable_states: a Dfs from each initial state's node index; the
union of the visited sets is exactly the set of indices reachable from the
initial index set (reachSet). -/
def WorkflowGraph.find_reachable_states (w : WorkflowGraph) : Finset Nat :=
  reachSet w.transitions w.states.length w.initialIdxSet

/-- validate: NoInitialState when no state lacks incoming transitions,
else NoTerminalState when no state is terminal, else UnreachableStates
when the reachable set does not cover every state, else success (none). -/
def WorkflowGraph.validate (w : WorkflowGraph) : Option WorkflowGraphError :=
  if w.initial_states.isEmpty then some WorkflowGraphError.NoInitialState
  else if !w.has_terminal_states then some WorkflowGraphError.NoTerminalState
  else
    if w.find_reachable_states.card < w.states.length then
      some (WorkflowGraphError.UnreachableStates w.states.length
        w.find_reachable_states.card)
    else none

/-- Well-formedness of a WorkflowGraph: state ids are distinct, the
StateId map points back at the right indices and is complete, and every
transition endpoint is a live state index. -/
def WorkflowGraph.WF (w : WorkflowGraph) : Prop :=
  ((w.states.map (fun s => s.sid)).Nodup) ∧
  (∀ p ∈ w.state_to_node,
    (w.states.get? p.2).map (fun s => s.sid) = some p.1) ∧
  (∀ i ∈ List.range w.states.length,
    hmLookup w.state_to_node (((w.states.get? i).map (fun s => s.sid)).getD 0)
      = some i) ∧
  (∀ t ∈ w.transitions, t.fst < w.states.length ∧ t.snd < w.states.length)

instance (w : WorkflowGraph) : Decidable w.WF := by
  unfold WorkflowGraph.WF; infer_instance

/-- A state index has no incoming transition. -/
def WorkflowGraph.ZeroIncoming (w : WorkflowGraph) (i : Nat) : Prop :=
  i < w.states.length ∧ ∀ t ∈ w.transitions, t.snd ≠ i

/-- A state index is reachable by forward traversal from the initial-state
set. -/
def WorkflowGraph.ReachableFromInitial (w : WorkflowGraph) (j : Nat) : Prop :=
  ∃ i, w.ZeroIncoming i ∧ Reaches w.transitions i j

theorem initial_states_isEmpty_iff (w : WorkflowGraph) :
    w.initial_states.isEmpty = true ↔ ¬∃ i, w.ZeroIncoming i := by
  constructor
  · rintro h ⟨i, hi, hz⟩
    have hir : i ∈ List.range w.states.length := List.mem_range.mpr hi
    have hpred : w.transitions.all (fun t => t.snd != i) = true := by
      rw [List.all_eq_true]
      intro t ht
      simpa using hz t ht
    have hif : i ∈ (List.range w.states.length).filter
        (fun i => w.transitions.all (fun t => t.snd != i)) :=
      List.mem_filter.mpr ⟨hir, hpred⟩
    obtain ⟨s, hs⟩ : ∃ s, w.states.get? i = some s := by
      cases hg : w.states.get? i with
      | none => exact absurd (List.get?_eq_none.mp hg) (Nat.not_le.mpr hi)
      | some s => exact ⟨s, rfl⟩
    have hmem : s ∈ w.initial_states := List.mem_filterMap.mpr ⟨i, hif, hs⟩
    rw [List.isEmpty_iff] at h
    rw [WorkflowGraph.initial_states] at hmem
    rw [WorkflowGraph.initial_states] at h
    rw [h] at hmem
    exact List.not_mem_nil s hmem
  · intro h
    rw [List.isEmpty_iff]
    unfold WorkflowGraph.initial_states
    cases hf : (List.range w.states.length).filter
        (fun i => w.transitions.all (fun t => t.snd != i)) with
    | nil => rfl
    | cons i rest =>
      exfalso
      apply h
      have hmem : i ∈ (List.range w.states.length).filter
          (fun i => w.transitions.all (fun t => t.snd != i)) := by
        rw [hf]
        exact List.mem_cons_self i rest
      have hfi := List.mem_filter.mp hmem
      refine ⟨i, List.mem_range.mp hfi.1, ?_⟩
      intro t ht
      have := List.all_eq_true.mp hfi.2 t ht
      simpa using this

theorem nodup_sid_index_eq {w : WorkflowGraph}
    (hnd : (w.states.map (fun s => s.sid)).Nodup) {i j x : Nat}
    (hi : (w.states.get? i).map (fun s => s.sid) = some x)
    (hj : (w.states.get? j).map (fun s => s.sid) = some x) : i = j := by
  have hib : i < w.states.length := by
    cases hg : w.states.get? i with
    | none => rw [hg] at hi; simp at hi
    | some s => exact (List.get?_eq_some.mp hg).1
  have hmi : (w.states.map (fun s => s.sid)).get? i = some x := by
    rw [List.get?_map, hi]
  have hmj : (w.states.map (fun s => s.sid)).get? j = some x := by
    rw [List.get?_map, hj]
  exact List.getElem?_inj (by simpa using hib) hnd
    (by rw [← List.get?_eq_getElem?, ← List.get?_eq_getElem?, hmi, hmj])

theorem mem_initialIdxSet_iff {w : WorkflowGraph} (hWF : w.WF) {j : Nat} :
    j ∈ w.initialIdxSet ↔ w.ZeroIncoming j := by
  obtain ⟨hnd, hmap, hcompl, htrans⟩ := hWF
  unfold WorkflowGraph.initialIdxSet
  rw [List.mem_toFinset, List.mem_filterMap]
  constructor
  · rintro ⟨s, hs, hlk⟩
    unfold WorkflowGraph.initial_states at hs
    obtain ⟨i, hif, hgi⟩ := List.mem_filterMap.mp hs
    have hfi := List.mem_filter.mp hif
    have hj := hmap _ (hmLookup_mem _ _ _ hlk)
    have hieq : (w.states.get? i).map (fun s2 => s2.sid) = some s.sid := by
      rw [hgi]
      rfl
    have hij := nodup_sid_index_eq hnd hieq hj
    subst hij
    refine ⟨List.mem_range.mp hfi.1, ?_⟩
    intro t ht
    have := List.all_eq_true.mp hfi.2 t ht
    simpa using this
  · rintro ⟨hjl, hz⟩
    obtain ⟨s, hs⟩ : ∃ s, w.states.get? j = some s := by
      cases hg : w.states.get? j with
      | none => exact absurd (List.get?_eq_none.mp hg) (Nat.not_le.mpr hjl)
      | some s => exact ⟨s, rfl⟩
    refine ⟨s, ?_, ?_⟩
    · unfold WorkflowGraph.initial_states
      refine List.mem_filterMap.mpr
        ⟨j, List.mem_filter.mpr ⟨List.mem_range.mpr hjl, ?_⟩, hs⟩
      rw [List.all_eq_true]
      intro t ht
      simpa using hz t ht
    · have := hcompl j (List.mem_range.mpr hjl)
      rw [hs] at this
      simpa using this

theorem reachable_card_iff {w : WorkflowGraph} (hWF : w.WF) :
    w.find_reachable_states.card < w.states.length ↔
      ∃ j, j < w.states.length ∧ ¬ w.ReachableFromInitial j := by
  have hEB : EdgesBounded w.transitions w.states.length :=
    fun t ht => hWF.2.2.2 t ht
  have hsub : w.initialIdxSet ⊆ Finset.range w.states.length := by
    intro j hj
    exact Finset.mem_range.mpr ((mem_initialIdxSet_iff hWF).mp hj).1
  have hmemiff : ∀ j, j ∈ w.find_reachable_states ↔ w.ReachableFromInitial j := by
    intro j
    unfold WorkflowGraph.find_reachable_states
    rw [mem_reachSet_iff _ _ hEB hsub]
    unfold WorkflowGraph.ReachableFromInitial
    constructor
    · rintro ⟨i, hi, hr⟩
      exact ⟨i, (mem_initialIdxSet_iff hWF).mp hi, hr⟩
    · rintro ⟨i, hi, hr⟩
      exact ⟨i, (mem_initialIdxSet_iff hWF).mpr hi, hr⟩
  have hrsub : w.find_reachable_states ⊆ Finset.range w.states.length :=
    iterF_bounded _ _ hEB hsub _
  constructor
  · intro hcard
    have hne : w.find_reachable_states ≠ Finset.range w.states.length := by
      intro he
      rw [he, Finset.card_range] at hcard
      omega
    obtain ⟨j, hjr, hjn⟩ := Finset.exists_of_ssubset
      (Finset.ssubset_iff_subset_ne.mpr ⟨hrsub, hne⟩)
    exact ⟨j, Finset.mem_range.mp hjr, fun hr => hjn ((hmemiff j).mpr hr)⟩
  · rintro ⟨j, hjl, hjn⟩
    have hjne : j ∉ w.find_reachable_states := fun hj => hjn ((hmemiff j).mp hj)
    have hss : w.find_reachable_states ⊂ Finset.range w.states.length := by
      rw [Finset.ssubset_iff_subset_ne]
      refine ⟨hrsub, ?_⟩
      intro he
      rw [he] at hjne
      exact hjne (Finset.mem_range.mpr hjl)
    have := Finset.card_lt_card hss
    simpa using this

/-- C9: validate fails exactly as the claim orders the checks —
NoInitialState when no state has zero incoming transitions, else
NoTerminalState when no state is terminal, else UnreachableStates
(carrying the state total and the reachable count, with reachable < total)
when some state cannot be reached by forward traversal from the
initial-state set — and succeeds when initial and terminal states exist
and every state is reachable. -/
theorem claim_C9_validate_checks {w : WorkflowGraph} (hWF : w.WF) :
    (w.validate = some WorkflowGraphError.NoInitialState ↔
      ¬∃ i, w.ZeroIncoming i) ∧
    (w.validate = some WorkflowGraphError.NoTerminalState ↔
      (∃ i, w.ZeroIncoming i) ∧ ¬∃ s ∈ w.states, s.terminal = true) ∧
    (∀ tot rc, w.validate = some (WorkflowGraphError.UnreachableStates tot rc) ↔
      (∃ i, w.ZeroIncoming i) ∧ (∃ s ∈ w.states, s.terminal = true) ∧
      tot = w.states.length ∧ rc = w.find_reachable_states.card ∧ rc < tot ∧
      (∃ j, j < w.states.length ∧ ¬ w.ReachableFromInitial j)) ∧
    (w.validate = none ↔
      (∃ i, w.ZeroIncoming i) ∧ (∃ s ∈ w.states, s.terminal = true) ∧
      ∀ j, j < w.states.length → w.ReachableFromInitial j) := by
  have hterm : w.has_terminal_states = true ↔ ∃ s ∈ w.states, s.terminal = true := by
    unfold WorkflowGraph.has_terminal_states
    rw [List.any_eq_true]
  by_cases h1 : w.initial_states.isEmpty
  · have hno : ¬∃ i, w.ZeroIncoming i := (initial_states_isEmpty_iff w).mp h1
    unfold WorkflowGraph.validate
    rw [if_pos h1]
    refine ⟨⟨fun _ => hno, fun _ => rfl⟩, ?_, ?_, ?_⟩
    · constructor
      · intro h
        exact absurd (Option.some.inj h) (fun hh => WorkflowGraphError.noConfusion hh)
      · rintro ⟨hz, _⟩
        exact absurd hz hno
    · intro tot rc
      constructor
      · intro h
        exact absurd (Option.some.inj h) (fun hh => WorkflowGraphError.noConfusion hh)
      · rintro ⟨hz, _⟩
        exact absurd hz hno
    · constructor
      · intro h
        exact Option.noConfusion h
      · rintro ⟨hz, _⟩
        exact absurd hz hno
  · have hyes : ∃ i, w.ZeroIncoming i := by
      by_contra hno
      exact h1 ((initial_states_isEmpty_iff w).mpr hno)
    by_cases h2 : w.has_terminal_states
    · have hterm2 : ∃ s ∈ w.states, s.terminal = true := hterm.mp h2
      have h2b : (!w.has_terminal_states) = false := by rw [h2]; rfl
      by_cases h3 : w.find_reachable_states.card < w.states.length
      · have hunr := (reachable_card_iff hWF).mp h3
        unfold WorkflowGraph.validate
        rw [if_neg h1, if_neg (by rw [h2b]; exact Bool.false_ne_true), if_pos h3]
        refine ⟨?_, ?_, ?_, ?_⟩
        · constructor
          · intro h
            exact absurd (Option.some.inj h) (fun hh => WorkflowGraphError.noConfusion hh)
          · intro hno2
            exact absurd hyes hno2
        · constructor
          · intro h
            exact absurd (Option.some.inj h) (fun hh => WorkflowGraphError.noConfusion hh)
          · rintro ⟨_, hnt⟩
            exact absurd hterm2 hnt
        · intro tot rc
          constructor
          · intro h
            have := Option.some.inj h
            cases this
            exact ⟨hyes, hterm2, rfl, rfl, h3, hunr⟩
          · rintro ⟨_, _, htot, hrc, _, _⟩
            rw [htot, hrc]
        · constructor
          · intro h
            exact Option.noConfusion h
          · rintro ⟨_, _, hall⟩
            obtain ⟨j, hjl, hjn⟩ := hunr
            exact absurd (hall j hjl) hjn
      · unfold WorkflowGraph.validate
        rw [if_neg h1, if_neg (by rw [h2b]; exact Bool.false_ne_true), if_neg h3]
        refine ⟨?_, ?_, ?_, ?_⟩
        · exact ⟨fun h => Option.noConfusion h, fun hno2 => absurd hyes hno2⟩
        · constructor
          · intro h
            exact Option.noConfusion h
          · rintro ⟨_, hnt⟩
            exact absurd hterm2 hnt
        · intro tot rc
          constructor
          · intro h
            exact Option.noConfusion h
          · rintro ⟨_, _, _, _, _, hunr⟩
            exact absurd hunr (by rw [← reachable_card_iff hWF]; exact h3)
        · constructor
          · intro _
            refine ⟨hyes, hterm2, ?_⟩
            intro j hjl
            by_contra hjn
            exact h3 ((reachable_card_iff hWF).mpr ⟨j, hjl, hjn⟩)
          · intro _
            rfl
    · have hnt : ¬∃ s ∈ w.states, s.terminal = true := fun hh => h2 (hterm.mpr hh)
      have h2f : w.has_terminal_states = false := by
        cases hb : w.has_terminal_states
        · rfl
        · exact absurd hb h2
      have h2b : (!w.has_terminal_states) = true := by rw [h2f]; rfl
      unfold WorkflowGraph.validate
      rw [if_neg h1, if_pos h2b]
      refine ⟨?_, ?_, ?_, ?_⟩
      · constructor
        · intro h
          exact absurd (Option.some.inj h) (fun hh => WorkflowGraphError.noConfusion hh)
        · intro hno2
          exact absurd hyes hno2
      · exact ⟨fun _ => ⟨hyes, hnt⟩, fun _ => rfl⟩
      · intro tot rc
        constructor
        · intro h
          exact absurd (Option.some.inj h) (fun hh => WorkflowGraphError.noConfusion hh)
        · rintro ⟨_, ht2, _⟩
          exact absurd ht2 hnt
      · constructor
        · intro h
          exact Option.noConfusion h
        · rintro ⟨_, ht2, _⟩
          exact absurd ht2 hnt

/-- A concrete two-state workflow: state id 10 (initial, index 0), state
id 20 (terminal, index 1), one transition from index 0 to index 1. -/
def demoWorkflow : WorkflowGraph :=
  { states := [{ sid := 10, terminal := false }, { sid := 20, terminal := true }],
    transitions := [(0, 1)],
    state_to_node := [(10, 0), (20, 1)],
    node_to_state := [(0, 10), (1, 20)] }

/-- Witness for C9 on the concrete workflow. -/
theorem claim_C9_validate_checks_witness :
    demoWorkflow.WF ∧
    ((demoWorkflow.validate = some WorkflowGraphError.NoInitialState ↔
       ¬∃ i, demoWorkflow.ZeroIncoming i) ∧
     (demoWorkflow.validate = some WorkflowGraphError.NoTerminalState ↔
       (∃ i, demoWorkflow.ZeroIncoming i) ∧
       ¬∃ s ∈ demoWorkflow.states, s.terminal = true) ∧
     (∀ tot rc, demoWorkflow.validate
         = some (WorkflowGraphError.UnreachableStates tot rc) ↔
       (∃ i, demoWorkflow.ZeroIncoming i) ∧
       (∃ s ∈ demoWorkflow.states, s.terminal = true) ∧
       tot = demoWorkflow.states.length ∧
       rc = demoWorkflow.find_reachable_states.card ∧ rc < tot ∧
       (∃ j, j < demoWorkflow.states.length ∧
         ¬ demoWorkflow.ReachableFromInitial j)) ∧
     (demoWorkflow.validate = none ↔
       (∃ i, demoWorkflow.ZeroIncoming i) ∧
       (∃ s ∈ demoWorkflow.states, s.terminal = true) ∧
       ∀ j, j < demoWorkflow.states.length →
         demoWorkflow.ReachableFromInitial j)) :=
  ⟨by decide, claim_C9_validate_checks (by decide)⟩
